import Mathlib

/-!
Shallow embedding of the N-Queens / Rabin-Karp visualization backend
(src/backend/nqueens.py and src/backend/rabinkarp.py), with theorems
checking the natural-language specification against the code.
-/

namespace NQ

/-- A board is a list of rows, each row a list of 0/1 cells
(Python `List[List[int]]`). -/
abbrev Board := List (List Nat)

/-- Read cell `board[i][j]`; Python indexing is always in range at call
sites, `getD` with default 0 is the total rendering. -/
def cell (board : Board) (i j : Nat) : Nat :=
  (board.getD i []).getD j 0

/-- `board[row][col] = v` (in-place assignment in Python, functional here). -/
def setCell (board : Board) (row col v : Nat) : Board :=
  board.set row ((board.getD row []).set col v)

/-- `[[0] * n for _ in range(n)]` -/
def emptyBoard (n : Nat) : Board :=
  List.replicate n (List.replicate n 0)

/-- `NQueensSolver.is_safe(row, col, board)`: returns `(safe, conflicts)`.
The three scans (column above; upper-left diagonal from `(row-1,col-1)`
towards `(0,0)`; upper-right diagonal from `(row-1,col+1)` towards
`(0,n-1)`) are rendered as `filterMap`s over the ranges the Python loops
traverse, in the same order. `n` is the solver's `self.n`. -/
def is_safe (n : Nat) (board : Board) (row col : Nat) :
    Bool × List (Nat × Nat) :=
  let colC := (List.range row).filterMap
    (fun i => if cell board i col = 1 then some (i, col) else none)
  let ulC := (List.range (min row col)).filterMap
    (fun k =>
      if cell board (row - 1 - k) (col - 1 - k) = 1 then
        some (row - 1 - k, col - 1 - k)
      else none)
  let urC := (List.range (min row (n - col - 1))).filterMap
    (fun k =>
      if cell board (row - 1 - k) (col + 1 + k) = 1 then
        some (row - 1 - k, col + 1 + k)
      else none)
  let conflicts := colC ++ ulC ++ urC
  (conflicts.length == 0, conflicts)

/-- `NQueensSolver.count_solutions(row)`: counts all solutions by
backtracking, mutating and restoring `self.board`.  The mutation is
threaded explicitly: the result is `(count, board after the call)`.
`fuel` is `n - row`; the Python base case `row == self.n` is `fuel = 0`
(every call site maintains `fuel + row = n`).  The `all_solutions` list
the Python accumulates is not modelled: no claim mentions it. -/
def count_solutions (n : Nat) : Nat → Nat → Board → Nat × Board
  | 0, _, board => (1, board)
  | fuel + 1, row, board =>
    (List.range n).foldl
      (fun acc col =>
        if (is_safe n acc.2 row col).1 then
          let r := count_solutions n fuel (row + 1) (setCell acc.2 row col 1)
          (acc.1 + r.1, setCell r.2 row col 0)
        else acc)
      (0, board)

/-- `StepType` enum of nqueens.py. -/
inductive StepType where
  | place
  | backtrack
  | solution
deriving DecidableEq, Repr

/-- `SolveStep` model of nqueens.py.  `row`/`col` are `Int` because the
SOLUTION step uses the sentinel `(-1, -1)`. -/
structure SolveStep where
  step_type : StepType
  row : Int
  col : Int
  board : Board
  message : String
deriving DecidableEq, Repr

/-- The mutable solver attributes that `solve_for_solution` touches
(`self.board`, `self.steps`, `self.solutions_found`), threaded
explicitly. -/
structure SolverState where
  board : Board
  steps : List SolveStep
  solutions_found : Nat
deriving DecidableEq, Repr

/-- One iteration of the `for col in range(self.n)` loop of
`solve_for_solution`: `recur` is the recursive call into `row + 1`.  The
accumulator carries the stop flag of the early `return True`: once set,
the remaining iterations leave the state unchanged, exactly as the early
return skips them. -/
def solveColBody (n row : Nat) (recur : SolverState → Bool × SolverState)
    (acc : Bool × SolverState) (col : Nat) : Bool × SolverState :=
  match acc with
  | (true, _) => acc
  | (false, st) =>
    if (is_safe n st.board row col).1 then
      let b1 := setCell st.board row col 1
      let placeStep : SolveStep :=
        ⟨.place, row, col, b1,
          "Placing queen at row " ++ toString (row + 1) ++
            ", column " ++ toString (col + 1)⟩
      let r := recur ⟨b1, st.steps ++ [placeStep], st.solutions_found⟩
      if r.1 then r
      else
        let b2 := setCell r.2.board row col 0
        let btStep : SolveStep :=
          ⟨.backtrack, row, col, b2,
            "Backtracking from row " ++ toString (row + 1) ++
              ", column " ++ toString (col + 1)⟩
        (false, ⟨b2, r.2.steps ++ [btStep], r.2.solutions_found⟩)
    else (false, st)

/-- `NQueensSolver.solve_for_solution(target_solution, row)`.  Returns the
Python boolean result together with the state after the call.  `fuel` is
`n - row` (base case `row == self.n` is `fuel = 0`; call sites maintain
`fuel + row = n`). -/
def solve_for_solution (n target : Nat) :
    Nat → Nat → SolverState → Bool × SolverState
  | 0, _, st =>
    let sf := st.solutions_found + 1
    let step : SolveStep :=
      ⟨.solution, -1, -1, st.board, "Solution #" ++ toString sf ++ " found!"⟩
    (decide (sf > target), ⟨st.board, st.steps ++ [step], sf⟩)
  | fuel + 1, row, st =>
    (List.range n).foldl
      (solveColBody n row
        (fun st1 => solve_for_solution n target fuel (row + 1) st1))
      (false, st)

/-- The static `SOLUTION_COUNTS` dictionary; `.get(n, 0)` is the total
function returning 0 off the table. -/
def SOLUTION_COUNTS : Nat → Nat
  | 4 => 2
  | 5 => 10
  | 6 => 4
  | 7 => 40
  | 8 => 92
  | _ => 0

/-- `SolveResponse` model. `current_solution` is `Int` (it is
`solution_index + 1` for the clamped index). -/
structure SolveResponse where
  steps : List SolveStep
  total_solutions : Nat
  current_solution : Int
deriving DecidableEq, Repr

/-- `solve_nqueens(request)`: catalogue lookup, clamping, trace-mode
solve on a fresh solver, 1-indexed current solution.  The request's
`solution_index` is an `Int` (Python int, may be negative). -/
def solve_nqueens (n : Nat) (solution_index : Int) : SolveResponse :=
  let total := SOLUTION_COUNTS n
  let idx : Int :=
    if total > 0 then max 0 (min solution_index ((total : Int) - 1)) else 0
  let r := solve_for_solution n idx.toNat n 0 ⟨emptyBoard n, [], 0⟩
  ⟨r.2.steps, total, idx + 1⟩

/-- `ValidateResponse` model. -/
structure ValidateResponse where
  valid : Bool
  message : String
  conflicts : List (Nat × Nat)
deriving DecidableEq, Repr

/-- `", ".join(f"({r+1}, {c+1})" for r, c in conflicts)` -/
def conflictDesc (conflicts : List (Nat × Nat)) : String :=
  ", ".intercalate (conflicts.map
    (fun rc => "(" ++ toString (rc.1 + 1) ++ ", " ++ toString (rc.2 + 1) ++ ")"))

/-- `validate_move(request)`. -/
def validate_move (n : Nat) (board : Board) (row col : Nat) :
    ValidateResponse :=
  if cell board row col = 1 then
    ⟨false, "There\x27s already a queen at this position!", []⟩
  else
    let r := is_safe n board row col
    if r.1 then
      ⟨true, "Valid move! Queen placed successfully.", []⟩
    else
      ⟨false, "Invalid move! Conflicts with queens at: " ++ conflictDesc r.2,
        r.2⟩

/-- `HintResponse` model. -/
structure HintResponse where
  has_hint : Bool
  row : Option Nat
  col : Option Nat
  message : String
deriving DecidableEq, Repr

/-- `NQueensSolver.get_hint(current_board)`.  The three scanning loops with
early return/break are first-match searches (`find?`) over the ranges the
Python loops traverse. -/
def get_hint (n : Nat) (current_board : Board) : HintResponse :=
  match (List.range n).find?
      (fun row => (current_board.getD row []).sum == 0) with
  | none =>
    ⟨false, none, none,
      "All queens are placed! Check if it\x27s a valid solution."⟩
  | some first_empty_row =>
    match (List.range first_empty_row).find?
        (fun row => !((current_board.getD row []).sum == 1)) with
    | some row =>
      ⟨false, none, none,
        "Row " ++ toString (row + 1) ++
          " needs exactly one queen before placing in row " ++
          toString (first_empty_row + 1) ++ "."⟩
    | none =>
      match (List.range n).find?
          (fun col => (is_safe n current_board first_empty_row col).1) with
      | some col =>
        ⟨true, some first_empty_row, some col,
          "Try placing a queen at row " ++ toString (first_empty_row + 1) ++
            ", column " ++ toString (col + 1) ++ "."⟩
      | none =>
        ⟨false, none, none,
          "No valid moves in current row. You may need to backtrack!"⟩

end NQ

namespace RK

/-- `RKStepType` enum of rabinkarp.py. -/
inductive RKStepType where
  | compute_pattern_hash
  | compute_window_hash
  | compare_hash
  | hash_match
  | verify_match
  | match_found
  | no_match
  | slide_window
deriving DecidableEq, Repr

/-- `RKStep` model.  `window_start`/`window_end` are `Int` because of the
`(-1, -1)` sentinel on the pattern-hash step. -/
structure RKStep where
  step_type : RKStepType
  window_start : Int
  window_end : Int
  pattern_hash : Int
  window_hash : Int
  message : String
  is_match : Bool
  highlight_indices : List Nat
deriving DecidableEq, Repr

/-- Engine-internal constant `base = 256`. -/
def base : Int := 256

/-- Engine-internal constant `prime = 101`. -/
def prime : Int := 101

/-- Python `ord` on the code points of the text. -/
def ordC (c : Char) : Int := (c.toNat : Int)

/-- Default used to render Python's (always in-range) string indexing
`self.text[i]` as a total function. -/
def dChar : Char := 'a'

/-- `RabinKarpVisualizer.compute_hash(s)`:
`h = (base * h + ord(char)) % prime` folded left to right.  Lean's `%` on
`Int` is `Int.emod`, which agrees with Python's `%` for a positive
modulus. -/
def compute_hash (s : List Char) : Int :=
  s.foldl (fun h c => (base * h + ordC c) % prime) 0

/-- The accumulating per-call state of the search loop (`self.steps`,
`self.matches`, and the local `window_hash`). -/
structure RKLoopState where
  steps : List RKStep
  matchesL : List Nat
  window_hash : Int
deriving DecidableEq, Repr

/-- One iteration of the `for i in range(n - m + 1)` loop of
`RabinKarpVisualizer.search`. -/
def searchBody (text pattern : List Char) (pattern_hash h : Int)
    (st : RKLoopState) (i : Nat) : RKLoopState :=
  let n := text.length
  let m := pattern.length
  let st := { st with steps := st.steps ++
    [⟨.compare_hash, i, (i : Int) + m - 1, pattern_hash, st.window_hash,
      "Comparing hashes: pattern=" ++ toString pattern_hash ++
        ", window=" ++ toString st.window_hash,
      false, List.range' i m⟩] }
  let st :=
    if pattern_hash = st.window_hash then
      let st := { st with steps := st.steps ++
        [(⟨.hash_match, i, (i : Int) + m - 1, pattern_hash, st.window_hash,
          "Hash match! Verifying characters...",
          false, List.range' i m⟩ : RKStep)] }
      if (text.drop i).take m = pattern then
        { st with
          matchesL := st.matchesL ++ [i],
          steps := st.steps ++
            [(⟨.match_found, i, (i : Int) + m - 1, pattern_hash,
              st.window_hash,
              "✓ Pattern found at index " ++ toString i ++ "!",
              true, List.range' i m⟩ : RKStep)] }
      else
        { st with steps := st.steps ++
          [(⟨.no_match, i, (i : Int) + m - 1, pattern_hash, st.window_hash,
            "Hash collision - characters don\x27t match",
            false, List.range' i m⟩ : RKStep)] }
    else st
  if i < n - m then
    let old_char := text.getD i dChar
    let new_char := text.getD (i + m) dChar
    let w := (base * (st.window_hash - ordC old_char * h) + ordC new_char)
      % prime
    let w := if w < 0 then w + prime else w
    { st with
      window_hash := w,
      steps := st.steps ++
        [⟨.slide_window, (i : Int) + 1, (i : Int) + m, pattern_hash, w,
          "Sliding window: remove \x27" ++ String.singleton old_char ++
            "\x27, add \x27" ++ String.singleton new_char ++
            "\x27 → hash=" ++ toString w,
          false, List.range' (i + 1) m⟩] }
  else st

/-- `RabinKarpVisualizer.search()`: returns the accumulated
`(steps, matches)` of the visualizer after the call. -/
def search (text pattern : List Char) : List RKStep × List Nat :=
  let n := text.length
  let m := pattern.length
  if m > n ∨ m = 0 then ([], [])
  else
    let pattern_hash := compute_hash pattern
    let step1 : RKStep :=
      ⟨.compute_pattern_hash, -1, -1, pattern_hash, 0,
        "Computing pattern hash: \x27" ++ String.mk pattern ++ "\x27 → " ++
          toString pattern_hash,
        false, []⟩
    let window_hash := compute_hash (text.take m)
    let step2 : RKStep :=
      ⟨.compute_window_hash, 0, (m : Int) - 1, pattern_hash, window_hash,
        "Computing first window hash: \x27" ++ String.mk (text.take m) ++
          "\x27 → " ++ toString window_hash,
        false, List.range m⟩
    let h := (base ^ (m - 1)) % prime
    let st := (List.range (n - m + 1)).foldl
      (searchBody text pattern pattern_hash h)
      ⟨[step1, step2], [], window_hash⟩
    (st.steps, st.matchesL)

/-- `RKSearchResponse` model. -/
structure RKSearchResponse where
  steps : List RKStep
  matchesL : List Nat
  text : List Char
  pattern : List Char
deriving DecidableEq, Repr

/-- `search_rabin_karp(request)`: fresh visualizer, run search, echo the
inputs back. -/
def search_rabin_karp (text pattern : List Char) : RKSearchResponse :=
  let r := search text pattern
  ⟨r.1, r.2, text, pattern⟩

/-- Spec-side ground truth: the window start indices whose window equals
the pattern by direct substring comparison (`text[i:i+len(pattern)] ==
pattern`), in increasing order. -/
def groundTruth (text pattern : List Char) : List Nat :=
  (List.range (text.length - pattern.length + 1)).filter
    (fun i => decide ((text.drop i).take pattern.length = pattern))

/-- Spec-side polynomial hash in `ZMod 101`, the image of
`compute_hash` under the cast. -/
def hashZ (s : List Char) : ZMod 101 :=
  s.foldl (fun h c => 256 * h + (c.toNat : ZMod 101)) 0

end RK

namespace NQ

/-! ### Spec-side notions for the N-Queens engine -/

/-- Spec-side: a queen at `(r1, c1)` and a queen at `(r2, c2)` threaten
each other (same column, same falling diagonal, or same rising
diagonal), stated for `r1 < r2` with subtraction-free arithmetic. -/
def attacksQ (r1 c1 r2 c2 : Nat) : Prop :=
  c1 = c2 ∨ r1 + c1 = r2 + c2 ∨ r1 + c2 = r2 + c1

instance (r1 c1 r2 c2 : Nat) : Decidable (attacksQ r1 c1 r2 c2) := by
  unfold attacksQ; infer_instance

/-- The board determined by a list of queen columns: row `r` holds a
queen exactly at column `qs[r]` (rows past `qs.length` are empty). -/
def boardOf (n : Nat) (qs : List Nat) : Board :=
  (List.range n).map (fun r =>
    (List.range n).map (fun c => if qs[r]? = some c then 1 else 0))

/-- Spec-side: the queens listed in `qs` are pairwise non-threatening. -/
def okQs (qs : List Nat) : Prop :=
  ∀ i j ci cj, i < j → qs[i]? = some ci → qs[j]? = some cj →
    ¬ attacksQ i ci j cj

/-- All queen columns fit on an `n`-wide board. -/
def qsBounded (n : Nat) (qs : List Nat) : Prop := ∀ c ∈ qs, c < n

/-- The row of `boardOf n qs` at index `r`. -/
def rowOf (n : Nat) (qs : List Nat) (r : Nat) : List Nat :=
  (List.range n).map (fun c => if qs[r]? = some c then 1 else 0)

/-! ### A column-list counter, equivalent to `count_solutions` but cheap
to evaluate in the kernel -/

/-- Scan the queens of `l` (row `k` holding `l[k]`) against a candidate
at row `d` (`d` counts down as the scan advances so that the queen at
index `k` sits `d - k` rows above the candidate). -/
def okQsF : List Nat → Nat → Nat → Bool
  | [], _, _ => true
  | q :: rest, col, d =>
    !(q == col || q + d == col || col + d == q) && okQsF rest col (d - 1)

/-- The candidate column `col` for the next free row of `qs` threatens
no queen of `qs`. -/
def safeQs (qs : List Nat) (col : Nat) : Bool := okQsF qs col qs.length

/-- Reference counter over column lists (same search shape as
`count_solutions`, no boards). -/
def countFast (n : Nat) : Nat → List Nat → Nat
  | 0, _ => 1
  | fuel + 1, qs =>
    (List.range n).foldl
      (fun acc col =>
        if safeQs qs col then acc + countFast n fuel (qs ++ [col]) else acc)
      0

/-- Number of SOLUTION steps in a step list. -/
def solCount (l : List SolveStep) : Nat :=
  (l.filter (fun s => s.step_type == StepType.solution)).length

/-- Spec-side rendering of the clamping rule of `solve_nqueens`
(`max(0, min(solution_index, total - 1)) if total > 0 else 0`). -/
def clampSpec (idx : Int) (total : Nat) : Int :=
  if 0 < total then max 0 (min idx ((total : Int) - 1)) else 0

/-- Spec-side: `b` is a complete solved `n`-queens board: `n`×`n`, one
queen in every row, one queen in every column, `n` queens in total, and
no two queens on a shared diagonal. -/
def isValidSolution (n : Nat) (b : Board) : Prop :=
  b.length = n ∧
  (∀ row ∈ b, row.length = n) ∧
  (b.map List.sum).sum = n ∧
  (∀ r, r < n → (b.getD r []).sum = 1) ∧
  (∀ c, c < n → (b.map (fun row => row.getD c 0)).sum = 1) ∧
  (∀ r1 c1 r2 c2, r1 < n → c1 < n → r2 < n → c2 < n → r1 < r2 →
    cell b r1 c1 = 1 → cell b r2 c2 = 1 →
    c1 ≠ c2 ∧ r1 + c1 ≠ r2 + c2 ∧ r1 + c2 ≠ r2 + c1)

/-! ### Board lemmas -/

theorem boardOf_eq_map (n : Nat) (qs : List Nat) :
    boardOf n qs = (List.range n).map (rowOf n qs) := rfl

theorem boardOf_length (n : Nat) (qs : List Nat) :
    (boardOf n qs).length = n := by simp [boardOf]

theorem boardOf_getElem? (n : Nat) (qs : List Nat) (r : Nat) :
    (boardOf n qs)[r]? = if r < n then some (rowOf n qs r) else none := by
  rw [boardOf_eq_map]
  rcases Nat.lt_or_ge r n with hr | hr
  · rw [List.getElem?_map, List.getElem?_range hr, Option.map_some', if_pos hr]
  · rw [List.getElem?_eq_none (by simpa using hr), if_neg (by omega)]

theorem rowOf_getElem? (n : Nat) (qs : List Nat) (r c : Nat) :
    (rowOf n qs r)[c]? =
      if c < n then some (if qs[r]? = some c then 1 else 0) else none := by
  unfold rowOf
  rcases Nat.lt_or_ge c n with hc | hc
  · rw [List.getElem?_map, List.getElem?_range hc, Option.map_some', if_pos hc]
  · rw [List.getElem?_eq_none (by simpa using hc), if_neg (by omega)]

theorem rowOf_length (n : Nat) (qs : List Nat) (r : Nat) :
    (rowOf n qs r).length = n := by simp [rowOf]

theorem cell_eq_getElem? (b : Board) (i j : Nat) :
    cell b i j = ((b[i]?.getD [])[j]?).getD 0 := by
  simp only [cell, List.getD_eq_getElem?_getD]

theorem cell_boardOf (n : Nat) (qs : List Nat) (i j : Nat) :
    cell (boardOf n qs) i j =
      if i < n ∧ j < n ∧ qs[i]? = some j then 1 else 0 := by
  rw [cell_eq_getElem?, boardOf_getElem?]
  rcases Nat.lt_or_ge i n with hi | hi
  · rw [if_pos hi]
    simp only [Option.getD_some, rowOf_getElem?]
    rcases Nat.lt_or_ge j n with hj | hj
    · rw [if_pos hj]
      by_cases h : qs[i]? = some j <;> simp [h, hi, hj]
    · rw [if_neg (by omega), if_neg (by rintro ⟨h1, h2, h3⟩; omega)]
      simp
  · rw [if_neg (by omega), if_neg (by rintro ⟨h1, h2, h3⟩; omega)]
    simp

theorem emptyBoard_eq_boardOf (n : Nat) :
    emptyBoard n = boardOf n ([] : List Nat) := by
  unfold emptyBoard
  rw [boardOf_eq_map]
  apply List.ext_getElem?
  intro r
  rcases Nat.lt_or_ge r n with hr | hr
  · rw [List.getElem?_map, List.getElem?_range hr, Option.map_some',
      List.getElem?_replicate_of_lt hr]
    congr 1
    unfold rowOf
    apply List.ext_getElem?
    intro c
    rcases Nat.lt_or_ge c n with hc | hc
    · rw [List.getElem?_map, List.getElem?_range hc, Option.map_some',
        List.getElem?_replicate_of_lt hc]
      simp
    · rw [List.getElem?_eq_none (by simpa using hc),
        List.getElem?_eq_none (by simpa using hc)]
  · rw [List.getElem?_eq_none (by simpa using hr),
      List.getElem?_eq_none (by simpa using hr)]

/-- The next free row of `boardOf n qs` is all zeros, and rewriting it
with a queen at `col` gives the row of `qs ++ [col]`. -/
theorem rowOf_set (n : Nat) (qs : List Nat) (col : Nat) (hcol : col < n) :
    (rowOf n qs qs.length).set col 1 = rowOf n (qs ++ [col]) qs.length := by
  apply List.ext_getElem?
  intro c
  have hnone : qs[qs.length]? = none := List.getElem?_eq_none (Nat.le_refl _)
  have hsome : (qs ++ [col])[qs.length]? = some col := by
    rw [List.getElem?_append_right (Nat.le_refl _)]
    simp
  rcases Nat.lt_or_ge c n with hc | hc
  · by_cases hcc : c = col
    · subst hcc
      rw [List.getElem?_set_self (by simpa [rowOf_length] using hc),
        rowOf_getElem?, if_pos hc, hsome]
      simp
    · rw [List.getElem?_set_ne (by omega), rowOf_getElem?, rowOf_getElem?,
        if_pos hc, if_pos hc, hnone, hsome]
      have : ¬ (some col = some c) := by simp; omega
      simp [this]
  · rw [List.getElem?_eq_none (by simpa [rowOf_length] using hc),
      List.getElem?_eq_none (by simpa [rowOf_length] using hc)]

/-- Clearing the queen of the last row gives back the row of `qs`. -/
theorem rowOf_unset (n : Nat) (qs : List Nat) (col : Nat) (hcol : col < n) :
    (rowOf n (qs ++ [col]) qs.length).set col 0 = rowOf n qs qs.length := by
  apply List.ext_getElem?
  intro c
  have hnone : qs[qs.length]? = none := List.getElem?_eq_none (Nat.le_refl _)
  have hsome : (qs ++ [col])[qs.length]? = some col := by
    rw [List.getElem?_append_right (Nat.le_refl _)]
    simp
  rcases Nat.lt_or_ge c n with hc | hc
  · by_cases hcc : c = col
    · subst hcc
      rw [List.getElem?_set_self (by simpa [rowOf_length] using hc),
        rowOf_getElem?, if_pos hc, hnone]
      simp
    · rw [List.getElem?_set_ne (by omega), rowOf_getElem?, rowOf_getElem?,
        if_pos hc, if_pos hc, hnone, hsome]
      have : ¬ (some col = some c) := by simp; omega
      simp [this]
  · rw [List.getElem?_eq_none (by simpa [rowOf_length] using hc),
      List.getElem?_eq_none (by simpa [rowOf_length] using hc)]

/-- Rows other than `qs.length` agree between `qs` and `qs ++ [col]`. -/
theorem rowOf_append_ne (n : Nat) (qs : List Nat) (col r : Nat)
    (h : r ≠ qs.length) : rowOf n (qs ++ [col]) r = rowOf n qs r := by
  unfold rowOf
  congr 1
  funext c
  rcases Nat.lt_or_ge r qs.length with hlt | hge
  · rw [List.getElem?_append_left hlt]
  · have h1 : qs[r]? = none := List.getElem?_eq_none (by omega)
    have h2 : (qs ++ [col])[r]? = none :=
      List.getElem?_eq_none (by simp; omega)
    rw [h1, h2]

/-- Placing a queen at the next free row of `boardOf n qs` appends its
column to `qs`. -/
theorem setCell_boardOf_place (n : Nat) (qs : List Nat) (col : Nat)
    (hrow : qs.length < n) (hcol : col < n) :
    setCell (boardOf n qs) qs.length col 1 = boardOf n (qs ++ [col]) := by
  unfold setCell
  have hgetD : (boardOf n qs).getD qs.length [] = rowOf n qs qs.length := by
    rw [List.getD_eq_getElem?_getD, boardOf_getElem?, if_pos hrow]
    rfl
  rw [hgetD, rowOf_set n qs col hcol]
  apply List.ext_getElem?
  intro r
  rcases Nat.lt_or_ge r n with hr | hr
  · by_cases hrq : r = qs.length
    · subst hrq
      rw [List.getElem?_set_self (by simpa [boardOf_length] using hrow),
        boardOf_getElem?, if_pos hr]
    · rw [List.getElem?_set_ne (by omega), boardOf_getElem?,
        boardOf_getElem?, if_pos hr, if_pos hr,
        rowOf_append_ne n qs col r hrq]
  · rw [List.getElem?_eq_none (by simp [boardOf_length]; omega),
      List.getElem?_eq_none (by simp [boardOf_length]; omega)]

/-- Removing the queen just placed restores `boardOf n qs`. -/
theorem setCell_boardOf_remove (n : Nat) (qs : List Nat) (col : Nat)
    (hrow : qs.length < n) (hcol : col < n) :
    setCell (boardOf n (qs ++ [col])) qs.length col 0 = boardOf n qs := by
  unfold setCell
  have hgetD : (boardOf n (qs ++ [col])).getD qs.length [] =
      rowOf n (qs ++ [col]) qs.length := by
    rw [List.getD_eq_getElem?_getD, boardOf_getElem?, if_pos hrow]
    rfl
  rw [hgetD, rowOf_unset n qs col hcol]
  apply List.ext_getElem?
  intro r
  rcases Nat.lt_or_ge r n with hr | hr
  · by_cases hrq : r = qs.length
    · subst hrq
      rw [List.getElem?_set_self (by simpa [boardOf_length] using hrow),
        boardOf_getElem?, if_pos hr]
    · rw [List.getElem?_set_ne (by omega), boardOf_getElem?,
        boardOf_getElem?, if_pos hr, if_pos hr,
        rowOf_append_ne n qs col r hrq]
  · rw [List.getElem?_eq_none (by simp [boardOf_length]; omega),
      List.getElem?_eq_none (by simp [boardOf_length]; omega)]

/-- Writing into row `row` does not change cells of other rows. -/
theorem cell_setCell_ne (board : Board) (row col v i j : Nat)
    (h : i ≠ row) : cell (setCell board row col v) i j = cell board i j := by
  rw [cell_eq_getElem?, cell_eq_getElem?]
  unfold setCell
  rw [List.getElem?_set_ne (by omega)]

/-! ### Characterization of `is_safe` -/

/-- The conflicts list of `is_safe` holds exactly the occupied cells
strictly above `row` in the same column, on the upper-left diagonal, and
on the upper-right diagonal (the last bounded by the board width `n`). -/
theorem is_safe_conflicts_mem (n : Nat) (board : Board) (row col i j : Nat) :
    (i, j) ∈ (is_safe n board row col).2 ↔
      cell board i j = 1 ∧ i < row ∧
        (j = col ∨ (i + col = j + row ∧ j < col) ∨
          (i + j = row + col ∧ col < j ∧ j < n)) := by
  unfold is_safe
  simp only [List.mem_append, List.mem_filterMap, List.mem_range]
  constructor
  · intro hmem
    rcases hmem with (⟨k, hk, hf⟩ | ⟨k, hk, hf⟩) | ⟨k, hk, hf⟩
    · by_cases h : cell board k col = 1
      · rw [if_pos h] at hf
        have hki : k = i ∧ col = j := by
          have h2 := Option.some.inj hf
          exact ⟨congrArg Prod.fst h2, congrArg Prod.snd h2⟩
        obtain ⟨rfl, rfl⟩ := hki
        exact ⟨h, hk, Or.inl rfl⟩
      · rw [if_neg h] at hf; exact absurd hf (by simp)
    · have hk2 : k < row ∧ k < col := by
        rw [Nat.lt_min] at hk; exact hk
      by_cases h : cell board (row - 1 - k) (col - 1 - k) = 1
      · rw [if_pos h] at hf
        have hki : row - 1 - k = i ∧ col - 1 - k = j := by
          have h2 := Option.some.inj hf
          exact ⟨congrArg Prod.fst h2, congrArg Prod.snd h2⟩
        obtain ⟨hi, hj⟩ := hki
        subst hi; subst hj
        refine ⟨h, by omega, Or.inr (Or.inl ⟨by omega, by omega⟩)⟩
      · rw [if_neg h] at hf; exact absurd hf (by simp)
    · have hk2 : k < row ∧ k < n - col - 1 := by
        rw [Nat.lt_min] at hk; exact hk
      by_cases h : cell board (row - 1 - k) (col + 1 + k) = 1
      · rw [if_pos h] at hf
        have hki : row - 1 - k = i ∧ col + 1 + k = j := by
          have h2 := Option.some.inj hf
          exact ⟨congrArg Prod.fst h2, congrArg Prod.snd h2⟩
        obtain ⟨hi, hj⟩ := hki
        subst hi; subst hj
        refine ⟨h, by omega, Or.inr (Or.inr ⟨by omega, by omega, by omega⟩)⟩
      · rw [if_neg h] at hf; exact absurd hf (by simp)
  · rintro ⟨hcell, hlt, (rfl | ⟨heq, hjc⟩ | ⟨heq, hcj, hjn⟩)⟩
    · exact Or.inl (Or.inl ⟨i, hlt, by rw [if_pos hcell]⟩)
    · refine Or.inl (Or.inr ⟨row - 1 - i, by omega, ?_⟩)
      have h1 : row - 1 - (row - 1 - i) = i := by omega
      have h2 : col - 1 - (row - 1 - i) = j := by omega
      rw [h1, h2, if_pos hcell]
    · refine Or.inr ⟨row - 1 - i, by omega, ?_⟩
      have h1 : row - 1 - (row - 1 - i) = i := by omega
      have h2 : col + 1 + (row - 1 - i) = j := by omega
      rw [h1, h2, if_pos hcell]

/-- `safe` is the emptiness test of the conflicts list. -/
theorem is_safe_fst_iff (n : Nat) (board : Board) (row col : Nat) :
    (is_safe n board row col).1 = true ↔ (is_safe n board row col).2 = [] := by
  unfold is_safe
  simp [List.length_eq_zero]

/-- On the board of `qs`, the next-row safety test of the code agrees
with the spec-side non-attacking predicate. -/
theorem is_safe_boardOf_true_iff (n : Nat) (qs : List Nat) (col : Nat)
    (hb : qsBounded n qs) (hrow : qs.length < n) (hcol : col < n) :
    ((is_safe n (boardOf n qs) qs.length col).1 = true ↔
      ∀ i ci, qs[i]? = some ci → ¬ attacksQ i ci qs.length col) := by
  rw [is_safe_fst_iff, List.eq_nil_iff_forall_not_mem]
  constructor
  · intro hno i ci hget hatt
    have hil : i < qs.length := by
      by_contra hge
      rw [List.getElem?_eq_none (by omega)] at hget
      exact absurd hget (by simp)
    have hcin : ci < n := by
      obtain ⟨hw, hv⟩ := List.getElem?_eq_some_iff.mp hget
      exact hv ▸ hb _ (List.getElem_mem hw)
    have hcell : cell (boardOf n qs) i ci = 1 := by
      rw [cell_boardOf, if_pos ⟨by omega, hcin, hget⟩]
    rcases hatt with hc | hd | hd
    · subst hc
      exact hno (i, ci)
        ((is_safe_conflicts_mem n _ qs.length ci i ci).mpr
          ⟨hcell, hil, Or.inl rfl⟩)
    · -- `i + ci = qs.length + col`: queen above-right (upper-right scan)
      have hcol_lt : col < ci := by omega
      exact hno (i, ci)
        ((is_safe_conflicts_mem n _ qs.length col i ci).mpr
          ⟨hcell, hil, Or.inr (Or.inr ⟨by omega, hcol_lt, hcin⟩)⟩)
    · -- `i + col = qs.length + ci`: queen above-left (upper-left scan)
      have hci_lt : ci < col := by omega
      exact hno (i, ci)
        ((is_safe_conflicts_mem n _ qs.length col i ci).mpr
          ⟨hcell, hil, Or.inr (Or.inl ⟨by omega, hci_lt⟩)⟩)
  · rintro hno ⟨i, j⟩ hmem
    rw [is_safe_conflicts_mem] at hmem
    obtain ⟨hcell, hlt, hcase⟩ := hmem
    rw [cell_boardOf] at hcell
    have hget : i < n ∧ j < n ∧ qs[i]? = some j := by
      by_contra h
      rw [if_neg h] at hcell
      omega
    refine hno i j hget.2.2 ?_
    unfold attacksQ
    rcases hcase with rfl | ⟨heq, hjc⟩ | ⟨heq, hcj, hjn⟩
    · exact Or.inl rfl
    · exact Or.inr (Or.inr (by omega))
    · exact Or.inr (Or.inl (by omega))

/-- Extending a non-attacking placement by a safely placed queen. -/
theorem okQs_append (qs : List Nat) (col : Nat) (hok : okQs qs)
    (hsafe : ∀ i ci, qs[i]? = some ci → ¬ attacksQ i ci qs.length col) :
    okQs (qs ++ [col]) := by
  intro i j ci cj hij hgi hgj
  have hjlen : j < qs.length + 1 := by
    by_contra hge
    rw [List.getElem?_eq_none (by simp; omega)] at hgj
    exact absurd hgj (by simp)
  rcases Nat.lt_or_ge j qs.length with hj | hj
  · rw [List.getElem?_append_left hj] at hgj
    rw [List.getElem?_append_left (by omega)] at hgi
    exact hok i j ci cj hij hgi hgj
  · have hjq : j = qs.length := by omega
    subst hjq
    rw [List.getElem?_append_right (Nat.le_refl _)] at hgj
    simp at hgj
    subst hgj
    rw [List.getElem?_append_left (by omega)] at hgi
    exact hsafe i ci hgi

theorem qsBounded_append (n : Nat) (qs : List Nat) (col : Nat)
    (hb : qsBounded n qs) (hcol : col < n) : qsBounded n (qs ++ [col]) := by
  intro c hc
  rcases List.mem_append.mp hc with h | h
  · exact hb c h
  · simp at h; omega

theorem okQsF_eq_true_iff (col : Nat) :
    ∀ (l : List Nat) (d : Nat),
      okQsF l col d = true ↔
        ∀ k ck, l[k]? = some ck →
          ¬ (ck = col ∨ ck + (d - k) = col ∨ col + (d - k) = ck)
  | [], d => by
    constructor
    · intro _ k ck hk
      rw [List.getElem?_eq_none (by simp)] at hk
      exact absurd hk (by simp)
    · intro _; rfl
  | q :: rest, d => by
    unfold okQsF
    rw [Bool.and_eq_true, Bool.not_eq_true', okQsF_eq_true_iff col rest (d - 1)]
    simp only [Bool.or_eq_false_iff, beq_eq_false_iff_ne, ne_eq]
    constructor
    · rintro ⟨⟨⟨h1, h2⟩, h3⟩, hrest⟩ k ck hk
      match k with
      | 0 =>
        simp only [List.getElem?_cons_zero] at hk
        obtain rfl : q = ck := Option.some.inj hk
        simp only [Nat.sub_zero]
        omega
      | k + 1 =>
        simp only [List.getElem?_cons_succ] at hk
        have hr := hrest k ck hk
        have harith : d - 1 - k = d - (k + 1) := by omega
        rw [harith] at hr
        exact hr
    · intro h
      have h0 := h 0 q (by simp)
      simp only [Nat.sub_zero] at h0
      refine ⟨⟨⟨by omega, by omega⟩, by omega⟩, ?_⟩
      intro k ck hk
      have hr := h (k + 1) ck (by simpa using hk)
      have harith : d - 1 - k = d - (k + 1) := by omega
      rw [harith]
      exact hr

/-- `safeQs` decides the spec-side non-attacking predicate for the next
free row. -/
theorem safeQs_iff (qs : List Nat) (col : Nat) :
    safeQs qs col = true ↔
      ∀ i ci, qs[i]? = some ci → ¬ attacksQ i ci qs.length col := by
  unfold safeQs
  rw [okQsF_eq_true_iff]
  constructor
  · intro h i ci hget hatt
    have hil : i < qs.length := by
      by_contra hge
      rw [List.getElem?_eq_none (by omega)] at hget
      exact absurd hget (by simp)
    refine h i ci hget ?_
    unfold attacksQ at hatt
    omega
  · intro h k ck hget hc
    have hkl : k < qs.length := by
      by_contra hge
      rw [List.getElem?_eq_none (by omega)] at hget
      exact absurd hget (by simp)
    refine h k ck hget ?_
    unfold attacksQ
    omega

/-- On boards of the form `boardOf n qs`, the code's safety test is the
fast one. -/
theorem is_safe_boardOf_eq_safeQs (n : Nat) (qs : List Nat) (col : Nat)
    (hb : qsBounded n qs) (hrow : qs.length < n) (hcol : col < n) :
    (is_safe n (boardOf n qs) qs.length col).1 = safeQs qs col := by
  by_cases h : safeQs qs col = true
  · rw [h, is_safe_boardOf_true_iff n qs col hb hrow hcol]
    exact (safeQs_iff qs col).mp h
  · have hf : safeQs qs col = false := Bool.eq_false_iff.mpr h
    rw [hf, Bool.eq_false_iff, ne_eq,
      is_safe_boardOf_true_iff n qs col hb hrow hcol]
    intro hP
    exact h ((safeQs_iff qs col).mpr hP)

/-- `count_solutions` computes `countFast` and restores the board. -/
theorem count_solutions_eq_countFast (n : Nat) :
    ∀ (fuel : Nat) (qs : List Nat), qs.length + fuel = n → qsBounded n qs →
      count_solutions n fuel qs.length (boardOf n qs) =
        (countFast n fuel qs, boardOf n qs)
  | 0, qs => by
    intro hlen hb
    unfold count_solutions countFast
    rfl
  | fuel + 1, qs => by
    intro hlen hb
    have hrow : qs.length < n := by omega
    unfold count_solutions countFast
    have haux : ∀ (cols : List Nat), (∀ c ∈ cols, c < n) → ∀ (a : Nat),
        cols.foldl
          (fun acc col =>
            if (is_safe n acc.2 qs.length col).1 then
              let r := count_solutions n fuel (qs.length + 1)
                (setCell acc.2 qs.length col 1)
              (acc.1 + r.1, setCell r.2 qs.length col 0)
            else acc)
          (a, boardOf n qs) =
        (cols.foldl
          (fun acc col =>
            if safeQs qs col then acc + countFast n fuel (qs ++ [col])
            else acc)
          a, boardOf n qs) := by
      intro cols
      induction cols with
      | nil => intro _ a; rfl
      | cons col rest ih =>
        intro hc a
        have hcol : col < n := hc col (by simp)
        rw [List.foldl_cons, List.foldl_cons]
        rw [is_safe_boardOf_eq_safeQs n qs col hb hrow hcol]
        by_cases hsafe : safeQs qs col = true
        · rw [if_pos hsafe, if_pos hsafe]
          rw [setCell_boardOf_place n qs col hrow hcol]
          have hlen2 : (qs ++ [col]).length + fuel = n := by simp; omega
          have hlen3 : qs.length + 1 = (qs ++ [col]).length := by simp
          have hrec : count_solutions n fuel (qs.length + 1)
              (boardOf n (qs ++ [col])) =
              (countFast n fuel (qs ++ [col]), boardOf n (qs ++ [col])) := by
            have hcc := count_solutions_eq_countFast n fuel (qs ++ [col])
              hlen2 (qsBounded_append n qs col hb hcol)
            rwa [← hlen3] at hcc
          rw [hrec]
          dsimp only
          rw [setCell_boardOf_remove n qs col hrow hcol]
          exact ih (fun c hcm => hc c (by simp [hcm])) _
        · rw [if_neg hsafe, if_neg hsafe]
          exact ih (fun c hcm => hc c (by simp [hcm])) a
    exact haux (List.range n) (fun c hcm => List.mem_range.mp hcm) 0

set_option maxRecDepth 100000 in
theorem countFast_val_4 : countFast 4 4 [] = 2 := by decide

set_option maxRecDepth 100000 in
theorem countFast_val_5 : countFast 5 5 [] = 10 := by decide

set_option maxRecDepth 100000 in
theorem countFast_val_6 : countFast 6 6 [] = 4 := by decide

set_option maxRecDepth 100000 in
set_option maxHeartbeats 1000000 in
theorem countFast_val_7 : countFast 7 7 [] = 40 := by decide

set_option maxRecDepth 400000 in
set_option maxHeartbeats 4000000 in
theorem countFast_val_8 : countFast 8 8 [] = 92 := by decide

/-! ### A complete non-attacking placement gives a valid solved board -/

theorem sum_indicator_zero (p : Nat → Prop) [DecidablePred p] :
    ∀ m : Nat, (∀ r < m, ¬ p r) →
      ((List.range m).map (fun r => if p r then 1 else 0)).sum = 0
  | 0, _ => rfl
  | m + 1, h => by
    rw [List.range_succ, List.map_append, List.sum_append]
    rw [sum_indicator_zero p m (fun r hr => h r (by omega))]
    simp [h m (by omega)]

theorem sum_indicator_unique (p : Nat → Prop) [DecidablePred p] :
    ∀ m : Nat, (∃ r, r < m ∧ p r ∧ ∀ s, s < m → p s → s = r) →
      ((List.range m).map (fun r => if p r then 1 else 0)).sum = 1
  | 0, h => by
    obtain ⟨r, hr, _⟩ := h
    omega
  | m + 1, h => by
    obtain ⟨r, hr, hp, huniq⟩ := h
    rw [List.range_succ, List.map_append, List.sum_append]
    by_cases hrm : r = m
    · subst hrm
      rw [sum_indicator_zero p r
        (fun s hs hps => absurd (huniq s (by omega) hps) (by omega))]
      simp [hp]
    · have hrm2 : r < m := by omega
      rw [sum_indicator_unique p m
        ⟨r, hrm2, hp, fun s hs hps => huniq s (by omega) hps⟩]
      have hpm : ¬ p m := fun hpm => absurd (huniq m (by omega) hpm) (by omega)
      simp [hpm]

theorem rowOf_sum_one (n : Nat) (qs : List Nat) (r q : Nat)
    (hq : qs[r]? = some q) (hqn : q < n) : (rowOf n qs r).sum = 1 := by
  unfold rowOf
  have hconv : ∀ c, (if qs[r]? = some c then (1 : Nat) else 0) =
      if q = c then 1 else 0 := by
    intro c
    rw [hq]
    by_cases hc : q = c
    · rw [if_pos (by rw [hc]), if_pos hc]
    · rw [if_neg (by intro hh; exact hc (Option.some.inj hh)), if_neg hc]
  rw [List.map_congr_left (fun c _ => hconv c)]
  exact sum_indicator_unique (fun c => q = c) n
    ⟨q, hqn, rfl, fun s _ hs => hs.symm⟩

/-- A complete, bounded, pairwise non-attacking placement yields a valid
solved board. -/
theorem boardOf_isValidSolution (n : Nat) (qs : List Nat)
    (hlen : qs.length = n) (hok : okQs qs) (hb : qsBounded n qs) :
    isValidSolution n (boardOf n qs) := by
  have hget : ∀ r, r < n → ∃ q, qs[r]? = some q ∧ q < n := by
    intro r hr
    have hr2 : r < qs.length := by omega
    refine ⟨qs[r], List.getElem?_eq_getElem hr2, ?_⟩
    exact hb _ (List.getElem_mem hr2)
  have hinj : ∀ (r1 r2 q : Nat), r1 < r2 → qs[r1]? = some q →
      qs[r2]? = some q → False := by
    intro r1 r2 q h12 hg1 hg2
    exact hok r1 r2 q q h12 hg1 hg2 (Or.inl rfl)
  refine ⟨boardOf_length n qs, ?_, ?_, ?_, ?_, ?_⟩
  · intro row hrow
    rw [boardOf_eq_map] at hrow
    obtain ⟨r, _, rfl⟩ := List.mem_map.mp hrow
    exact rowOf_length n qs r
  · rw [boardOf_eq_map, List.map_map]
    have hone : ∀ r ∈ List.range n, (List.sum ∘ rowOf n qs) r = 1 := by
      intro r hr
      obtain ⟨q, hq, hqn⟩ := hget r (List.mem_range.mp hr)
      exact rowOf_sum_one n qs r q hq hqn
    rw [List.map_congr_left hone]
    simp
  · intro r hr
    obtain ⟨q, hq, hqn⟩ := hget r hr
    have hrow : (boardOf n qs).getD r [] = rowOf n qs r := by
      rw [List.getD_eq_getElem?_getD, boardOf_getElem?, if_pos hr]
      rfl
    rw [hrow]
    exact rowOf_sum_one n qs r q hq hqn
  · -- one queen per column, via pigeonhole on the queen columns
    intro c hc
    have hn : qs.length = n := hlen
    have hsurj : ∃ r, r < n ∧ qs[r]? = some c := by
      have hval : ∀ j : Fin n,
          qs[(j.1 : Nat)]? = some (qs.get ⟨j.1, by omega⟩) := by
        intro j
        rw [List.getElem?_eq_getElem (by omega)]
        rfl
      have hinj2 : Function.Injective
          (fun r : Fin n => (⟨qs.get ⟨r.1, by omega⟩,
            hb _ (qs.get_mem r.1 (by omega))⟩ : Fin n)) := by
        intro r1 r2 heq
        simp only [Fin.mk.injEq] at heq
        by_contra hne
        have hne2 : r1.1 ≠ r2.1 := fun hh => hne (Fin.ext hh)
        have heq2 : qs[(r1.1 : Nat)]? = qs[(r2.1 : Nat)]? := by
          rw [hval r1, hval r2, heq]
        rcases Nat.lt_or_ge r1.1 r2.1 with h12 | h12
        · exact hinj r1.1 r2.1 _ h12 (by rw [heq2]; exact hval r2) (hval r2)
        · have h21 : r2.1 < r1.1 := by omega
          exact hinj r2.1 r1.1 _ h21 (by rw [← heq2]; exact hval r1) (hval r1)
      have hsurj2 := Finite.injective_iff_surjective.mp hinj2
      obtain ⟨r, hr⟩ := hsurj2 ⟨c, hc⟩
      refine ⟨r.1, r.2, ?_⟩
      have hrval := congrArg Fin.val hr
      simp only [] at hrval
      rw [hval r]
      exact congrArg some hrval
    obtain ⟨r0, hr0, hg0⟩ := hsurj
    have hcol : (boardOf n qs).map (fun row => row.getD c 0) =
        (List.range n).map (fun r => if qs[r]? = some c then 1 else 0) := by
      rw [boardOf_eq_map, List.map_map]
      refine List.map_congr_left ?_
      intro r hr
      simp only [Function.comp_apply]
      rw [List.getD_eq_getElem?_getD, rowOf_getElem?, if_pos hc]
      rfl
    rw [hcol]
    refine sum_indicator_unique (fun r => qs[r]? = some c) n
      ⟨r0, hr0, hg0, ?_⟩
    intro s _ hgs
    by_contra hne
    rcases Nat.lt_or_ge s r0 with h12 | h12
    · exact hinj s r0 c h12 hgs hg0
    · exact hinj r0 s c (by omega) hg0 hgs
  · intro r1 c1 r2 c2 hr1 hc1 hr2 hc2 h12 hcell1 hcell2
    rw [cell_boardOf] at hcell1 hcell2
    have hg1 : qs[r1]? = some c1 := by
      by_contra hh
      rw [if_neg (by tauto)] at hcell1
      omega
    have hg2 : qs[r2]? = some c2 := by
      by_contra hh
      rw [if_neg (by tauto)] at hcell2
      omega
    have := hok r1 r2 c1 c2 h12 hg1 hg2
    unfold attacksQ at this
    refine ⟨?_, ?_, ?_⟩ <;> (intro hh; exact this (by tauto))

/-! ### Helpers for the trace-mode solver -/

theorem solCount_append (l1 l2 : List SolveStep) :
    solCount (l1 ++ l2) = solCount l1 + solCount l2 := by
  unfold solCount
  rw [List.filter_append, List.length_append]

theorem solCount_nil : solCount [] = 0 := rfl

theorem solCount_single (s : SolveStep) :
    solCount [s] = if s.step_type = StepType.solution then 1 else 0 := by
  unfold solCount
  by_cases h : s.step_type = StepType.solution
  · have hb : (s.step_type == StepType.solution) = true := by simp [h]
    rw [if_pos h]
    simp [List.filter_cons, hb]
  · have hb : (s.step_type == StepType.solution) = false := by simp [h]
    rw [if_neg h]
    simp [List.filter_cons, hb]

theorem solCount_cons (s : SolveStep) (l : List SolveStep) :
    solCount (s :: l) =
      (if s.step_type = StepType.solution then 1 else 0) + solCount l := by
  have h : s :: l = [s] ++ l := rfl
  rw [h, solCount_append, solCount_single]

/-- Once the stop flag is set, the remaining column iterations of the
solver fold do nothing. -/
theorem solveFold_stopped (n row : Nat)
    (recur : SolverState → Bool × SolverState) (st : SolverState) :
    ∀ cols : List Nat,
      cols.foldl (solveColBody n row recur) (true, st) = (true, st)
  | [] => rfl
  | col :: rest => by
    rw [List.foldl_cons]
    exact solveFold_stopped n row recur st rest

/-- Folding `if p col then acc + f col else acc` sums the guarded
contributions. -/
theorem foldl_add_if (p : Nat → Bool) (f : Nat → Nat) :
    ∀ (cols : List Nat) (a : Nat),
      cols.foldl (fun acc col => if p col then acc + f col else acc) a =
        a + (cols.map (fun col => if p col then f col else 0)).sum
  | [], a => by simp
  | col :: rest, a => by
    rw [List.foldl_cons, List.map_cons, List.sum_cons]
    by_cases h : p col
    · rw [if_pos h, if_pos h, foldl_add_if p f rest (a + f col)]
      omega
    · rw [if_neg h, if_neg h, foldl_add_if p f rest a]
      omega

/-- Master invariant of the trace-mode solver.  Started at the next free
row of `boardOf n qs` with `solutions_found ≤ target`, the call stops
exactly when this subtree brings the running total past `target`; a
non-stopping call restores the board and adds the subtree solution
count; the step list grows by a block whose SOLUTION steps count the
solutions found; and a stopping call ends its block with a SOLUTION step
carrying a complete non-attacking placement. -/
theorem solve_master (n target : Nat) :
    ∀ (fuel : Nat) (qs : List Nat) (st : SolverState),
      st.board = boardOf n qs → qs.length + fuel = n → qsBounded n qs →
      okQs qs → st.solutions_found ≤ target →
      ((solve_for_solution n target fuel qs.length st).1 = true ↔
          st.solutions_found + countFast n fuel qs > target) ∧
      ((solve_for_solution n target fuel qs.length st).1 = false →
          (solve_for_solution n target fuel qs.length st).2.board = st.board ∧
          (solve_for_solution n target fuel qs.length st).2.solutions_found =
            st.solutions_found + countFast n fuel qs) ∧
      ((solve_for_solution n target fuel qs.length st).1 = true →
          (solve_for_solution n target fuel qs.length st).2.solutions_found =
            target + 1) ∧
      (∃ Δ, (solve_for_solution n target fuel qs.length st).2.steps =
          st.steps ++ Δ ∧
        st.solutions_found + solCount Δ =
          (solve_for_solution n target fuel qs.length st).2.solutions_found ∧
        ((solve_for_solution n target fuel qs.length st).1 = true →
          ∃ qsSol last, Δ.getLast? = some last ∧
            last.step_type = StepType.solution ∧
            last.board = boardOf n qsSol ∧
            qsSol.length = n ∧ okQs qsSol ∧ qsBounded n qsSol))
  | 0 => by
    intro qs st hstb hlen hb hok hsf
    unfold solve_for_solution
    dsimp only
    have hcf : countFast n 0 qs = 1 := rfl
    rw [hcf]
    refine ⟨?_, ?_, ?_, ?_⟩
    · rw [decide_eq_true_eq]
    · intro hfalse
      exact ⟨rfl, rfl⟩
    · intro htrue
      rw [decide_eq_true_eq] at htrue
      omega
    · refine ⟨[⟨.solution, -1, -1, st.board,
        "Solution #" ++ toString (st.solutions_found + 1) ++ " found!"⟩],
        rfl, ?_, ?_⟩
      · rw [solCount_single]
        rfl
      · intro _
        refine ⟨qs, _, rfl, rfl, ?_, by omega, hok, hb⟩
        exact hstb
  | fuel + 1 => by
    intro qs st hstb hlen hb hok hsf
    have hrow : qs.length < n := by omega
    have hcf : countFast n (fuel + 1) qs =
        ((List.range n).map (fun col =>
          if safeQs qs col then countFast n fuel (qs ++ [col]) else 0)).sum := by
      have h1 := foldl_add_if (fun col => safeQs qs col)
        (fun col => countFast n fuel (qs ++ [col])) (List.range n) 0
      conv_lhs => rw [countFast]
      exact h1.trans (Nat.zero_add _)
    unfold solve_for_solution
    rw [hcf]
    have haux : ∀ (cols : List Nat), (∀ c ∈ cols, c < n) →
        ∀ (st : SolverState), st.board = boardOf n qs →
        st.solutions_found ≤ target →
        ((cols.foldl (solveColBody n qs.length
            (fun st1 => solve_for_solution n target fuel (qs.length + 1) st1))
            (false, st)).1 = true ↔
          st.solutions_found + (cols.map (fun col =>
            if safeQs qs col then countFast n fuel (qs ++ [col]) else 0)).sum
            > target) ∧
        ((cols.foldl (solveColBody n qs.length
            (fun st1 => solve_for_solution n target fuel (qs.length + 1) st1))
            (false, st)).1 = false →
          (cols.foldl (solveColBody n qs.length
            (fun st1 => solve_for_solution n target fuel (qs.length + 1) st1))
            (false, st)).2.board = st.board ∧
          (cols.foldl (solveColBody n qs.length
            (fun st1 => solve_for_solution n target fuel (qs.length + 1) st1))
            (false, st)).2.solutions_found =
            st.solutions_found + (cols.map (fun col =>
              if safeQs qs col then countFast n fuel (qs ++ [col]) else 0)).sum) ∧
        ((cols.foldl (solveColBody n qs.length
            (fun st1 => solve_for_solution n target fuel (qs.length + 1) st1))
            (false, st)).1 = true →
          (cols.foldl (solveColBody n qs.length
            (fun st1 => solve_for_solution n target fuel (qs.length + 1) st1))
            (false, st)).2.solutions_found = target + 1) ∧
        (∃ Δ, (cols.foldl (solveColBody n qs.length
            (fun st1 => solve_for_solution n target fuel (qs.length + 1) st1))
            (false, st)).2.steps = st.steps ++ Δ ∧
          st.solutions_found + solCount Δ =
            (cols.foldl (solveColBody n qs.length
              (fun st1 => solve_for_solution n target fuel (qs.length + 1) st1))
              (false, st)).2.solutions_found ∧
          ((cols.foldl (solveColBody n qs.length
              (fun st1 => solve_for_solution n target fuel (qs.length + 1) st1))
              (false, st)).1 = true →
            ∃ qsSol last, Δ.getLast? = some last ∧
              last.step_type = StepType.solution ∧
              last.board = boardOf n qsSol ∧
              qsSol.length = n ∧ okQs qsSol ∧ qsBounded n qsSol)) := by
      intro cols
      induction cols with
      | nil =>
        intro _ st hstb2 hsf2
        simp only [List.foldl_nil, List.map_nil, List.sum_nil]
        refine ⟨?_, ?_, ?_, ⟨[], by simp, by simp [solCount_nil], ?_⟩⟩
        · constructor
          · intro h; exact absurd h (by simp)
          · intro h; omega
        · intro _
          constructor
          · trivial
          · trivial
        · intro h; exact absurd h (by simp)
        · intro h; exact absurd h (by simp)
      | cons col rest ihc =>
        intro hcb st hstb2 hsf2
        have hcol : col < n := hcb col (by simp)
        have hrestb : ∀ c ∈ rest, c < n := fun c hcm => hcb c (by simp [hcm])
        rw [List.foldl_cons, List.map_cons, List.sum_cons]
        have hcond : (is_safe n st.board qs.length col).1 = safeQs qs col := by
          rw [hstb2]
          exact is_safe_boardOf_eq_safeQs n qs col hb hrow hcol
        by_cases hsafe : safeQs qs col = true
        · -- safe column: place, recurse, then stop or backtrack
          have hokA : okQs (qs ++ [col]) :=
            okQs_append qs col hok ((safeQs_iff qs col).mp hsafe)
          have hbA : qsBounded n (qs ++ [col]) := qsBounded_append n qs col hb hcol
          have hlenA : (qs ++ [col]).length + fuel = n := by simp; omega
          have hplace : setCell st.board qs.length col 1 =
              boardOf n (qs ++ [col]) := by
            rw [hstb2]
            exact setCell_boardOf_place n qs col hrow hcol
          have hbody : solveColBody n qs.length
              (fun st1 => solve_for_solution n target fuel (qs.length + 1) st1)
              (false, st) col =
              (let r := solve_for_solution n target fuel (qs.length + 1)
                ⟨boardOf n (qs ++ [col]),
                  st.steps ++ [⟨.place, qs.length, col, boardOf n (qs ++ [col]),
                    "Placing queen at row " ++ toString (qs.length + 1) ++
                      ", column " ++ toString (col + 1)⟩],
                  st.solutions_found⟩
               if r.1 then r
               else (false, ⟨setCell r.2.board qs.length col 0,
                 r.2.steps ++ [⟨.backtrack, qs.length, col,
                   setCell r.2.board qs.length col 0,
                   "Backtracking from row " ++ toString (qs.length + 1) ++
                     ", column " ++ toString (col + 1)⟩],
                 r.2.solutions_found⟩)) := by
            unfold solveColBody
            dsimp only
            rw [hcond, hsafe]
            rw [if_pos rfl]
            rw [hplace]
          rw [hbody]
          set st1 : SolverState :=
            ⟨boardOf n (qs ++ [col]),
              st.steps ++ [⟨.place, qs.length, col, boardOf n (qs ++ [col]),
                "Placing queen at row " ++ toString (qs.length + 1) ++
                  ", column " ++ toString (col + 1)⟩],
              st.solutions_found⟩ with hst1
          have hihA := solve_master n target fuel (qs ++ [col]) st1 rfl
            hlenA hbA hokA (by rw [hst1]; exact hsf2)
          have hlen3 : (qs ++ [col]).length = qs.length + 1 := by simp
          rw [hlen3] at hihA
          obtain ⟨ih1, ih2, ih3, Δ2, hΔsteps, hΔcount, hΔlast⟩ := hihA
          have hst1sf : st1.solutions_found = st.solutions_found := rfl
          have hst1steps : st1.steps = st.steps ++
            [⟨.place, qs.length, col, boardOf n (qs ++ [col]),
              "Placing queen at row " ++ toString (qs.length + 1) ++
                ", column " ++ toString (col + 1)⟩] := rfl
          by_cases hstop :
            (solve_for_solution n target fuel (qs.length + 1) st1).1 = true
          · -- the recursive call found the target: stop propagates
            rw [if_pos hstop]
            have hX : solve_for_solution n target fuel (qs.length + 1) st1 =
                (true,
                  (solve_for_solution n target fuel (qs.length + 1) st1).2) := by
              rw [← hstop]
            rw [hX, solveFold_stopped]
            dsimp only
            have hcnt := ih1.mp hstop
            rw [hst1sf] at hcnt
            refine ⟨?_, ?_, ?_, ?_⟩
            · refine ⟨fun _ => ?_, fun _ => rfl⟩
              rw [if_pos hsafe]
              omega
            · intro h; exact absurd h (by simp)
            · intro _
              rw [ih3 hstop]
            · refine ⟨(⟨.place, qs.length, col, boardOf n (qs ++ [col]),
                "Placing queen at row " ++ toString (qs.length + 1) ++
                  ", column " ++ toString (col + 1)⟩ : SolveStep) :: Δ2,
                ?_, ?_, ?_⟩
              · rw [hΔsteps, hst1steps, List.append_assoc]
                rfl
              · rw [solCount_cons]
                rw [hst1sf] at hΔcount
                rw [if_neg (by intro hh; cases hh)]
                omega
              · intro _
                obtain ⟨qsSol, last, hglast, hrest2⟩ := hΔlast hstop
                refine ⟨qsSol, last, ?_, hrest2.1, hrest2.2.1, hrest2.2.2⟩
                have hsplit : (⟨.place, qs.length, col, boardOf n (qs ++ [col]),
                    "Placing queen at row " ++ toString (qs.length + 1) ++
                      ", column " ++ toString (col + 1)⟩ : SolveStep) :: Δ2 =
                    [⟨.place, qs.length, col, boardOf n (qs ++ [col]),
                      "Placing queen at row " ++ toString (qs.length + 1) ++
                        ", column " ++ toString (col + 1)⟩] ++ Δ2 := rfl
                rw [hsplit, List.getLast?_append, hglast]
                rfl
          · -- recursive call exhausted: backtrack and continue
            have hfalse :
                (solve_for_solution n target fuel (qs.length + 1) st1).1 =
                  false := Bool.eq_false_iff.mpr hstop
            rw [if_neg (by rw [hfalse]; exact Bool.false_ne_true)]
            obtain ⟨hXboard, hXsf⟩ := ih2 hfalse
            rw [hst1sf] at hXsf
            have hXb2 : (solve_for_solution n target fuel
                (qs.length + 1) st1).2.board = boardOf n (qs ++ [col]) := by
              rw [hXboard]
            rw [hXb2, setCell_boardOf_remove n qs col hrow hcol]
            have hnostop : st.solutions_found +
                countFast n fuel (qs ++ [col]) ≤ target := by
              by_contra hx
              exact hstop (ih1.mpr (by rw [hst1sf]; omega))
            have hrest := ihc hrestb
              ⟨boardOf n qs,
                (solve_for_solution n target fuel
                  (qs.length + 1) st1).2.steps ++
                  [⟨.backtrack, qs.length, col, boardOf n qs,
                    "Backtracking from row " ++ toString (qs.length + 1) ++
                      ", column " ++ toString (col + 1)⟩],
                (solve_for_solution n target fuel
                  (qs.length + 1) st1).2.solutions_found⟩
              rfl (by dsimp only; omega)
            obtain ⟨r1, r2, r3, Δr, hΔrsteps, hΔrcount, hΔrlast⟩ := hrest
            dsimp only at r1 r2 r3 hΔrsteps hΔrcount hΔrlast
            refine ⟨?_, ?_, ?_, ?_⟩
            · rw [r1, if_pos hsafe, hXsf]
              constructor <;> (intro h; omega)
            · intro hfl
              obtain ⟨hbd, hsfr⟩ := r2 hfl
              refine ⟨by rw [hbd, hstb2], ?_⟩
              rw [hsfr, hXsf, if_pos hsafe]
              omega
            · exact r3
            · refine ⟨(⟨.place, qs.length, col, boardOf n (qs ++ [col]),
                "Placing queen at row " ++ toString (qs.length + 1) ++
                  ", column " ++ toString (col + 1)⟩ : SolveStep) ::
                (Δ2 ++ (⟨.backtrack, qs.length, col, boardOf n qs,
                  "Backtracking from row " ++ toString (qs.length + 1) ++
                    ", column " ++ toString (col + 1)⟩ : SolveStep) :: Δr),
                ?_, ?_, ?_⟩
              · rw [hΔrsteps, hΔsteps, hst1steps]
                simp only [List.append_assoc, List.cons_append,
                  List.singleton_append, List.nil_append]
              · rw [solCount_cons, solCount_append, solCount_cons]
                rw [if_neg (by intro hh; cases hh),
                  if_neg (by intro hh; cases hh)]
                rw [hst1sf] at hΔcount
                omega
              · intro hstop2
                obtain ⟨qsSol, last, hglast, hrest2⟩ := hΔrlast hstop2
                refine ⟨qsSol, last, ?_, hrest2.1, hrest2.2.1, hrest2.2.2⟩
                have hsplit : (⟨.place, qs.length, col, boardOf n (qs ++ [col]),
                    "Placing queen at row " ++ toString (qs.length + 1) ++
                      ", column " ++ toString (col + 1)⟩ : SolveStep) ::
                    (Δ2 ++ (⟨.backtrack, qs.length, col, boardOf n qs,
                      "Backtracking from row " ++ toString (qs.length + 1) ++
                        ", column " ++ toString (col + 1)⟩ : SolveStep) :: Δr) =
                    ((⟨.place, qs.length, col, boardOf n (qs ++ [col]),
                      "Placing queen at row " ++ toString (qs.length + 1) ++
                        ", column " ++ toString (col + 1)⟩ : SolveStep) ::
                      (Δ2 ++ [⟨.backtrack, qs.length, col, boardOf n qs,
                        "Backtracking from row " ++ toString (qs.length + 1) ++
                          ", column " ++ toString (col + 1)⟩])) ++ Δr := by
                  simp
                rw [hsplit, List.getLast?_append, hglast]
                rfl
        · -- unsafe column: no step, no count
          have hbody : solveColBody n qs.length
              (fun st1 => solve_for_solution n target fuel (qs.length + 1) st1)
              (false, st) col = (false, st) := by
            unfold solveColBody
            dsimp only
            rw [hcond]
            have hsfB : safeQs qs col = false := Bool.eq_false_iff.mpr hsafe
            rw [hsfB]
            rw [if_neg Bool.false_ne_true]
          rw [hbody, if_neg hsafe]
          have hrest := ihc hrestb st hstb2 hsf2
          simpa using hrest
    exact haux (List.range n) (fun c hcm => List.mem_range.mp hcm) st hstb hsf

/-- The board-level counter on a fresh board agrees with the static
catalogue for every catalogued `n`, and hands the all-empty board back. -/
theorem count_solutions_fresh (n : Nat) :
    count_solutions n n 0 (emptyBoard n) = (countFast n n [], emptyBoard n) := by
  have h0 : (0 : Nat) = ([] : List Nat).length := rfl
  rw [emptyBoard_eq_boardOf, h0]
  exact count_solutions_eq_countFast n n [] (by simp) (by intro c hc; simp at hc)

theorem okQs_nil : okQs ([] : List Nat) := by
  intro i j ci cj hij hgi hgj
  rw [List.getElem?_nil] at hgi
  exact absurd hgi (by simp)

/-! ### Generic `find?` lemmas over index ranges -/

theorem find?_range'_eq_some (p : Nat → Bool) :
    ∀ (k s tr : Nat), s ≤ tr → tr < s + k →
      (∀ r, s ≤ r → r < tr → p r = false) → p tr = true →
      (List.range' s k).find? p = some tr
  | 0, s, tr => by
    intro h1 h2 _ _
    omega
  | k + 1, s, tr => by
    intro hs htr hbelow hp
    rw [List.range'_succ s k 1]
    by_cases hst : s = tr
    · subst hst
      rw [List.find?_cons_of_pos _ hp]
    · have hpf : p s = false := hbelow s (Nat.le_refl s) (by omega)
      rw [List.find?_cons_of_neg _ (by rw [hpf]; exact Bool.false_ne_true)]
      exact find?_range'_eq_some p k (s + 1) tr (by omega) (by omega)
        (fun r h1 h2 => hbelow r (by omega) h2) hp

theorem find?_range'_eq_none (p : Nat → Bool) :
    ∀ (k s : Nat), (∀ r, s ≤ r → r < s + k → p r = false) →
      (List.range' s k).find? p = none
  | 0, s => by intro _; rfl
  | k + 1, s => by
    intro h
    rw [List.range'_succ s k 1]
    rw [List.find?_cons_of_neg _
      (by rw [h s (Nat.le_refl s) (by omega)]; exact Bool.false_ne_true)]
    exact find?_range'_eq_none p k (s + 1) (fun r h1 h2 => h r (by omega) (by omega))

theorem find?_range_eq_some (p : Nat → Bool) (m tr : Nat) (htr : tr < m)
    (hbelow : ∀ r, r < tr → p r = false) (hp : p tr = true) :
    (List.range m).find? p = some tr := by
  rw [List.range_eq_range']
  exact find?_range'_eq_some p m 0 tr (Nat.zero_le tr) (by omega)
    (fun r _ h2 => hbelow r h2) hp

theorem find?_range_eq_none (p : Nat → Bool) (m : Nat)
    (h : ∀ r, r < m → p r = false) : (List.range m).find? p = none := by
  rw [List.range_eq_range']
  exact find?_range'_eq_none p m 0 (fun r _ h2 => h r (by omega))

/-- Pairwise shape of a `filterMap` over `range`: whenever the produced
elements respect `R` for increasing indices, the list is pairwise `R`. -/
theorem pairwise_filterMap_range (m : Nat) (f : Nat → Option (Nat × Nat))
    (R : Nat × Nat → Nat × Nat → Prop)
    (h : ∀ a b x y, a < b → b < m → f a = some x → f b = some y → R x y) :
    ((List.range m).filterMap f).Pairwise R := by
  rw [List.pairwise_filterMap]
  rw [List.pairwise_iff_getElem]
  intro i j hi hj hij
  intro x hx y hy
  rw [List.getElem_range] at hx hy
  have hjm : j < m := by
    have := hj
    rw [List.length_range] at this
    exact this
  exact h i j x y hij hjm (Option.mem_def.mp hx) (Option.mem_def.mp hy)

/-! ### Claim theorems for the N-Queens engine -/

/-- C2 counterexample: the claim says the trace of `Solve(N, i)` holds
exactly one SOLUTION step; but `Solve(4, 1)` records a SOLUTION step for
the first solution it passes on the way to the second, so its trace has
two SOLUTION steps. -/
theorem claim_C2_counterexample :
    ¬ (solCount (solve_nqueens 4 1).steps = 1) := by decide

/-- C2 (amended): for N in {4,…,8} and a target index `i` in
`[0, totalSolutions-1]`, `Solve(N, i)` terminates with a nonempty trace
whose final step is a SOLUTION step whose board snapshot is a valid
solved board (N queens, one per row and column, no shared diagonal); the
trace contains exactly `i + 1` SOLUTION steps (one per solution
encountered up to and including the target), not exactly one. -/
theorem claim_C2_solve_trace (n : Nat)
    (hn : n = 4 ∨ n = 5 ∨ n = 6 ∨ n = 7 ∨ n = 8) (i : Int)
    (h0 : 0 ≤ i) (hi : i < (SOLUTION_COUNTS n : Int)) :
    (solve_nqueens n i).steps ≠ [] ∧
    (∃ last, (solve_nqueens n i).steps.getLast? = some last ∧
      last.step_type = StepType.solution ∧ isValidSolution n last.board) ∧
    solCount (solve_nqueens n i).steps = i.toNat + 1 := by
  have htot : 0 < SOLUTION_COUNTS n := by
    rcases hn with rfl | rfl | rfl | rfl | rfl <;> decide
  have hcnt : countFast n n [] = SOLUTION_COUNTS n := by
    rcases hn with rfl | rfl | rfl | rfl | rfl
    · exact countFast_val_4
    · exact countFast_val_5
    · exact countFast_val_6
    · exact countFast_val_7
    · exact countFast_val_8
  have hidx : (if SOLUTION_COUNTS n > 0 then
      max 0 (min i ((SOLUTION_COUNTS n : Int) - 1)) else 0) = i := by
    rw [if_pos htot]
    omega
  have hres : solve_nqueens n i =
      ⟨(solve_for_solution n i.toNat n 0 ⟨emptyBoard n, [], 0⟩).2.steps,
        SOLUTION_COUNTS n, i + 1⟩ := by
    unfold solve_nqueens
    dsimp only
    rw [hidx]
  have hmaster := solve_master n i.toNat n [] ⟨emptyBoard n, [], 0⟩
    (by dsimp only; exact emptyBoard_eq_boardOf n) (by simp)
    (by intro c hc; exact absurd hc (by simp)) okQs_nil (Nat.zero_le _)
  simp only [List.length_nil] at hmaster
  obtain ⟨h1, h2, h3, Δ, hsteps, hcount, hlast⟩ := hmaster
  have hstop :
      (solve_for_solution n i.toNat n 0 ⟨emptyBoard n, [], 0⟩).1 = true := by
    apply h1.mpr
    show 0 + countFast n n [] > i.toNat
    rw [hcnt]
    omega
  obtain ⟨qsSol, last, hgl, hty, hbd, hql, hqok, hqb⟩ := hlast hstop
  have hvalid : isValidSolution n last.board := by
    rw [hbd]
    exact boardOf_isValidSolution n qsSol hql hqok hqb
  rw [List.nil_append] at hsteps
  have hstepsEq : (solve_nqueens n i).steps = Δ := by
    rw [hres]
    exact hsteps
  refine ⟨?_, ⟨last, ?_, hty, hvalid⟩, ?_⟩
  · rw [hstepsEq]
    intro hnil
    rw [hnil] at hgl
    exact absurd hgl (by simp)
  · rw [hstepsEq]
    exact hgl
  · rw [hstepsEq]
    have hsf := h3 hstop
    omega

/-- C2 witness: the amended claim at `N = 4`, `i = 1`. -/
theorem claim_C2_witness :
    ((4 : Nat) = 4 ∨ (4 : Nat) = 5 ∨ (4 : Nat) = 6 ∨ (4 : Nat) = 7 ∨
      (4 : Nat) = 8) ∧ (0 : Int) ≤ 1 ∧ (1 : Int) < (SOLUTION_COUNTS 4 : Int) ∧
    ((solve_nqueens 4 1).steps ≠ [] ∧
    (∃ last, (solve_nqueens 4 1).steps.getLast? = some last ∧
      last.step_type = StepType.solution ∧ isValidSolution 4 last.board) ∧
    solCount (solve_nqueens 4 1).steps = (1 : Int).toNat + 1) :=
  ⟨Or.inl rfl, by decide, by decide,
    claim_C2_solve_trace 4 (Or.inl rfl) 1 (by decide) (by decide)⟩

/-- C3 counterexample: with queens at (0,0) and (1,1) on a 3×3 board,
the conflicts of cell (2,2) are listed walking the upper-left diagonal
upward, `[(1,1), (0,0)]` — not top-to-bottom `[(0,0), (1,1)]` as the
claim orders them. -/
theorem claim_C3_counterexample :
    (is_safe 3 [[1, 0, 0], [0, 1, 0], [0, 0, 0]] 2 2).2 ≠ [(0, 0), (1, 1)] ∧
    (is_safe 3 [[1, 0, 0], [0, 1, 0], [0, 0, 0]] 2 2).2 = [(1, 1), (0, 0)] := by
  decide

/-- C3 (amended): `safe` is true iff the conflicts list is empty; the
conflicts list holds exactly the queens strictly above `row` in the same
column, on the upper-left diagonal and on the upper-right diagonal; and
it is ordered column scan first (top-to-bottom), then the upper-left
diagonal, then the upper-right diagonal, each diagonal walked upward
from the candidate (bottom-to-top), not top-to-bottom. -/
theorem claim_C3_is_safe_conflicts (n : Nat) (board : Board) (row col : Nat) :
    ((is_safe n board row col).1 = true ↔ (is_safe n board row col).2 = []) ∧
    (∀ i j, ((i, j) ∈ (is_safe n board row col).2 ↔
      cell board i j = 1 ∧ i < row ∧
        (j = col ∨ (i + col = j + row ∧ j < col) ∨
          (i + j = row + col ∧ col < j ∧ j < n)))) ∧
    (∃ P1 P2 P3, (is_safe n board row col).2 = P1 ++ P2 ++ P3 ∧
      (∀ x ∈ P1, x.2 = col ∧ x.1 < row) ∧
      P1.Pairwise (fun a b => a.1 < b.1) ∧
      (∀ x ∈ P2, x.1 + col = x.2 + row ∧ x.2 < col ∧ x.1 < row) ∧
      P2.Pairwise (fun a b => b.1 < a.1) ∧
      (∀ x ∈ P3, x.1 + x.2 = row + col ∧ col < x.2 ∧ x.2 < n ∧ x.1 < row) ∧
      P3.Pairwise (fun a b => b.1 < a.1)) := by
  refine ⟨is_safe_fst_iff n board row col,
    fun i j => is_safe_conflicts_mem n board row col i j, ?_⟩
  refine ⟨(List.range row).filterMap
      (fun i => if cell board i col = 1 then some (i, col) else none),
    (List.range (min row col)).filterMap
      (fun k => if cell board (row - 1 - k) (col - 1 - k) = 1 then
        some (row - 1 - k, col - 1 - k) else none),
    (List.range (min row (n - col - 1))).filterMap
      (fun k => if cell board (row - 1 - k) (col + 1 + k) = 1 then
        some (row - 1 - k, col + 1 + k) else none),
    rfl, ?_, ?_, ?_, ?_, ?_, ?_⟩
  · intro x hx
    obtain ⟨a, ha, hfa⟩ := List.mem_filterMap.mp hx
    by_cases hc : cell board a col = 1
    · rw [if_pos hc] at hfa
      obtain rfl := Option.some.inj hfa
      exact ⟨rfl, List.mem_range.mp ha⟩
    · rw [if_neg hc] at hfa
      exact absurd hfa (by simp)
  · refine pairwise_filterMap_range row _ _ ?_
    intro a b x y hab hbm hfa hfb
    by_cases hca : cell board a col = 1
    · rw [if_pos hca] at hfa
      obtain rfl := Option.some.inj hfa
      by_cases hcb : cell board b col = 1
      · rw [if_pos hcb] at hfb
        obtain rfl := Option.some.inj hfb
        exact hab
      · rw [if_neg hcb] at hfb
        exact absurd hfb (by simp)
    · rw [if_neg hca] at hfa
      exact absurd hfa (by simp)
  · intro x hx
    obtain ⟨k, hk, hfk⟩ := List.mem_filterMap.mp hx
    have hk2 := List.mem_range.mp hk
    rw [Nat.lt_min] at hk2
    by_cases hc : cell board (row - 1 - k) (col - 1 - k) = 1
    · rw [if_pos hc] at hfk
      obtain rfl := Option.some.inj hfk
      refine ⟨by omega, by omega, by omega⟩
    · rw [if_neg hc] at hfk
      exact absurd hfk (by simp)
  · refine pairwise_filterMap_range (min row col) _ _ ?_
    intro a b x y hab hbm hfa hfb
    rw [Nat.lt_min] at hbm
    by_cases hca : cell board (row - 1 - a) (col - 1 - a) = 1
    · rw [if_pos hca] at hfa
      obtain rfl := Option.some.inj hfa
      by_cases hcb : cell board (row - 1 - b) (col - 1 - b) = 1
      · rw [if_pos hcb] at hfb
        obtain rfl := Option.some.inj hfb
        dsimp only
        omega
      · rw [if_neg hcb] at hfb
        exact absurd hfb (by simp)
    · rw [if_neg hca] at hfa
      exact absurd hfa (by simp)
  · intro x hx
    obtain ⟨k, hk, hfk⟩ := List.mem_filterMap.mp hx
    have hk2 := List.mem_range.mp hk
    rw [Nat.lt_min] at hk2
    by_cases hc : cell board (row - 1 - k) (col + 1 + k) = 1
    · rw [if_pos hc] at hfk
      obtain rfl := Option.some.inj hfk
      refine ⟨by omega, by omega, by omega, by omega⟩
    · rw [if_neg hc] at hfk
      exact absurd hfk (by simp)
  · refine pairwise_filterMap_range (min row (n - col - 1)) _ _ ?_
    intro a b x y hab hbm hfa hfb
    rw [Nat.lt_min] at hbm
    by_cases hca : cell board (row - 1 - a) (col + 1 + a) = 1
    · rw [if_pos hca] at hfa
      obtain rfl := Option.some.inj hfa
      by_cases hcb : cell board (row - 1 - b) (col + 1 + b) = 1
      · rw [if_pos hcb] at hfb
        obtain rfl := Option.some.inj hfb
        dsimp only
        omega
      · rw [if_neg hcb] at hfb
        exact absurd hfb (by simp)
    · rw [if_neg hca] at hfa
      exact absurd hfa (by simp)

/-- C4 counterexample: on the empty 4×4 board, (0,0) is safe; after
placing a queen there, `is_safe` at the empty same-row cell (0,1) still
returns true, because the scan looks only at rows strictly above. -/
theorem claim_C4_counterexample :
    (is_safe 4 (emptyBoard 4) 0 0).1 = true ∧
    cell (setCell (emptyBoard 4) 0 0 1) 0 1 = 0 ∧
    (is_safe 4 (setCell (emptyBoard 4) 0 0 1) 0 1).1 = true := by decide

/-- C4 (amended): after placing a queen at a safe cell `(row, col)`,
`is_safe` at any other empty cell `(row, col')` of the same row returns
exactly what it returned before the placement — the scan never looks at
row `row`, so the row-duplicate is not detected by `is_safe` (the solver
keeps one queen per row structurally instead). -/
theorem claim_C4_same_row_unchanged (n : Nat) (board : Board)
    (row col col' : Nat) (hsafe : (is_safe n board row col).1 = true)
    (hne : col' ≠ col) (hempty : cell board row col' = 0) :
    is_safe n (setCell board row col 1) row col' =
      is_safe n board row col' := by
  unfold is_safe
  have h1 : (List.range row).filterMap
      (fun i => if cell (setCell board row col 1) i col' = 1 then
        some (i, col') else none) =
      (List.range row).filterMap
      (fun i => if cell board i col' = 1 then some (i, col') else none) := by
    refine List.filterMap_congr ?_
    intro i hi
    rw [cell_setCell_ne board row col 1 i col'
      (by have := List.mem_range.mp hi; omega)]
  have h2 : (List.range (min row col')).filterMap
      (fun k => if cell (setCell board row col 1) (row - 1 - k) (col' - 1 - k)
          = 1 then some (row - 1 - k, col' - 1 - k) else none) =
      (List.range (min row col')).filterMap
      (fun k => if cell board (row - 1 - k) (col' - 1 - k) = 1 then
        some (row - 1 - k, col' - 1 - k) else none) := by
    refine List.filterMap_congr ?_
    intro k hk
    have hkr := List.mem_range.mp hk
    rw [Nat.lt_min] at hkr
    rw [cell_setCell_ne board row col 1 (row - 1 - k) (col' - 1 - k)
      (by omega)]
  have h3 : (List.range (min row (n - col' - 1))).filterMap
      (fun k => if cell (setCell board row col 1) (row - 1 - k) (col' + 1 + k)
          = 1 then some (row - 1 - k, col' + 1 + k) else none) =
      (List.range (min row (n - col' - 1))).filterMap
      (fun k => if cell board (row - 1 - k) (col' + 1 + k) = 1 then
        some (row - 1 - k, col' + 1 + k) else none) := by
    refine List.filterMap_congr ?_
    intro k hk
    have hkr := List.mem_range.mp hk
    rw [Nat.lt_min] at hkr
    rw [cell_setCell_ne board row col 1 (row - 1 - k) (col' + 1 + k)
      (by omega)]
  dsimp only
  rw [h1, h2, h3]

/-- C4 witness: the amended claim at the empty 4×4 board, queen placed
at (0,0), probe at (0,1). -/
theorem claim_C4_witness :
    (is_safe 4 (emptyBoard 4) 0 0).1 = true ∧ (1 : Nat) ≠ 0 ∧
    cell (emptyBoard 4) 0 1 = 0 ∧
    is_safe 4 (setCell (emptyBoard 4) 0 0 1) 0 1 =
      is_safe 4 (emptyBoard 4) 0 1 :=
  ⟨by decide, by decide, by decide,
    claim_C4_same_row_unchanged 4 (emptyBoard 4) 0 0 1 (by decide) (by decide)
      (by decide)⟩

/-- C5: `solve_nqueens` takes `totalSolutions` from the static
catalogue, clamps the requested index as the spec words it, runs the
trace-mode solver on the clamped index, and reports
`currentSolution = clampedIndex + 1`; out-of-range indices behave
exactly like the last valid index, in particular
`Solve(4, 99) = Solve(4, 1)`. -/
theorem claim_C5_solve_clamps (n : Nat) (idx : Int) :
    (solve_nqueens n idx).total_solutions = SOLUTION_COUNTS n ∧
    (solve_nqueens n idx).current_solution =
      clampSpec idx (SOLUTION_COUNTS n) + 1 ∧
    (solve_nqueens n idx).steps =
      (solve_for_solution n (clampSpec idx (SOLUTION_COUNTS n)).toNat n 0
        ⟨emptyBoard n, [], 0⟩).2.steps ∧
    (0 < SOLUTION_COUNTS n → (SOLUTION_COUNTS n : Int) - 1 ≤ idx →
      solve_nqueens n idx = solve_nqueens n ((SOLUTION_COUNTS n : Int) - 1)) ∧
    solve_nqueens 4 99 = solve_nqueens 4 1 := by
  refine ⟨rfl, rfl, rfl, ?_, ?_⟩
  · intro htot hge
    have hclamp : (if SOLUTION_COUNTS n > 0 then
        max 0 (min idx ((SOLUTION_COUNTS n : Int) - 1)) else 0) =
        (if SOLUTION_COUNTS n > 0 then
          max 0 (min ((SOLUTION_COUNTS n : Int) - 1)
            ((SOLUTION_COUNTS n : Int) - 1)) else 0) := by
      rw [if_pos htot, if_pos htot]
      omega
    simp only [solve_nqueens]
    rw [hclamp]
  · have hclamp : (if SOLUTION_COUNTS 4 > 0 then
        max 0 (min (99 : Int) ((SOLUTION_COUNTS 4 : Int) - 1)) else 0) =
        (if SOLUTION_COUNTS 4 > 0 then
          max 0 (min (1 : Int) ((SOLUTION_COUNTS 4 : Int) - 1)) else 0) := by
      decide
    simp only [solve_nqueens]
    rw [hclamp]

/-- C5 witness: totals, clamped index and steps of `Solve(4, 99)`. -/
theorem claim_C5_witness :
    (solve_nqueens 4 99).total_solutions = SOLUTION_COUNTS 4 ∧
    (solve_nqueens 4 99).current_solution =
      clampSpec 99 (SOLUTION_COUNTS 4) + 1 ∧
    (solve_nqueens 4 99).steps =
      (solve_for_solution 4 (clampSpec 99 (SOLUTION_COUNTS 4)).toNat 4 0
        ⟨emptyBoard 4, [], 0⟩).2.steps ∧
    (0 < SOLUTION_COUNTS 4 → (SOLUTION_COUNTS 4 : Int) - 1 ≤ 99 →
      solve_nqueens 4 99 = solve_nqueens 4 ((SOLUTION_COUNTS 4 : Int) - 1)) ∧
    solve_nqueens 4 99 = solve_nqueens 4 1 :=
  claim_C5_solve_clamps 4 99

/-- C7: `validate_move` on an occupied cell rejects immediately with an
empty conflicts list and the "already a queen" message, never consulting
the safety check. -/
theorem claim_C7_validate_occupied (n : Nat) (board : Board) (row col : Nat)
    (h : cell board row col = 1) :
    validate_move n board row col =
      ⟨false, "There\x27s already a queen at this position!", []⟩ := by
  unfold validate_move
  rw [if_pos h]

/-- C7 witness: occupied cell (0,0) on a board whose position would
otherwise be fine. -/
theorem claim_C7_witness :
    cell [[1, 0], [0, 0]] 0 0 = 1 ∧
    validate_move 2 [[1, 0], [0, 0]] 0 0 =
      ⟨false, "There\x27s already a queen at this position!", []⟩ :=
  ⟨by decide, claim_C7_validate_occupied 2 [[1, 0], [0, 0]] 0 0 (by decide)⟩

/-- C9: on a board whose first all-empty row is `tr` with every row
above holding exactly one queen, the hint engine proposes `(tr, c)` for
the smallest column `c` the Conflict Checker judges safe, or reports no
hint with the backtrack message when no column is safe; on the empty
8×8 board the hint is `(0, 0)`. -/
theorem claim_C9_hint (n : Nat) (board : Board) (tr : Nat) (htr : tr < n)
    (hempty : ∀ x ∈ board.getD tr [], x = 0)
    (habove : ∀ r, r < tr → (board.getD r []).sum = 1) :
    ((∀ c, c < n → (is_safe n board tr c).1 = false) →
      get_hint n board = ⟨false, none, none,
        "No valid moves in current row. You may need to backtrack!"⟩) ∧
    (∀ c, c < n → (is_safe n board tr c).1 = true →
      (∀ c', c' < c → (is_safe n board tr c').1 = false) →
      get_hint n board = ⟨true, some tr, some c,
        "Try placing a queen at row " ++ toString (tr + 1) ++
          ", column " ++ toString (c + 1) ++ "."⟩) ∧
    get_hint 8 (emptyBoard 8) = ⟨true, some 0, some 0,
      "Try placing a queen at row 1, column 1."⟩ := by
  have hfind1 : (List.range n).find?
      (fun row => (board.getD row []).sum == 0) = some tr := by
    refine find?_range_eq_some _ n tr htr ?_ ?_
    · intro r hr
      rw [habove r hr]
      rfl
    · have hz : (board.getD tr []).sum = 0 := by
        refine List.sum_eq_zero ?_
        intro x hx
        exact hempty x hx
      rw [hz]
      rfl
  have hfind2 : (List.range tr).find?
      (fun row => !((board.getD row []).sum == 1)) = none := by
    refine find?_range_eq_none _ tr ?_
    intro r hr
    rw [habove r hr]
    rfl
  refine ⟨?_, ?_, by decide⟩
  · intro hall
    have hfind3 := find?_range_eq_none
      (fun col => (is_safe n board tr col).1) n (fun c hc => hall c hc)
    unfold get_hint
    simp only [hfind1, hfind2, hfind3]
  · intro c hc hcsafe hleft
    have hfind3 := find?_range_eq_some
      (fun col => (is_safe n board tr col).1) n c hc
      (fun c' hc' => hleft c' hc') hcsafe
    unfold get_hint
    simp only [hfind1, hfind2, hfind3]

/-- C9 witness: the empty 8×8 board, first empty row 0, smallest safe
column 0. -/
theorem claim_C9_witness :
    (0 : Nat) < 8 ∧
    (∀ x ∈ (emptyBoard 8).getD 0 [], x = 0) ∧
    (∀ r, r < 0 → ((emptyBoard 8).getD r []).sum = 1) ∧
    get_hint 8 (emptyBoard 8) = ⟨true, some 0, some 0,
      "Try placing a queen at row 1, column 1."⟩ :=
  ⟨by decide, by decide, by omega,
    (claim_C9_hint 8 (emptyBoard 8) 0 (by decide) (by decide)
      (by omega)).2.2⟩

/-- C10: on a fresh solver, `count_solutions` returns exactly the static
catalogue entry for every N in {4,…,8} and leaves the board all-empty. -/
theorem claim_C10_count_catalogue (n : Nat)
    (hn : n = 4 ∨ n = 5 ∨ n = 6 ∨ n = 7 ∨ n = 8) :
    count_solutions n n 0 (emptyBoard n) = (SOLUTION_COUNTS n, emptyBoard n) := by
  rw [count_solutions_fresh]
  rcases hn with rfl | rfl | rfl | rfl | rfl
  · rw [countFast_val_4]
    rfl
  · rw [countFast_val_5]
    rfl
  · rw [countFast_val_6]
    rfl
  · rw [countFast_val_7]
    rfl
  · rw [countFast_val_8]
    rfl

/-- C10 witness: the catalogue agreement at N = 4. -/
theorem claim_C10_witness :
    ((4 : Nat) = 4 ∨ (4 : Nat) = 5 ∨ (4 : Nat) = 6 ∨ (4 : Nat) = 7 ∨
      (4 : Nat) = 8) ∧
    count_solutions 4 4 0 (emptyBoard 4) = (SOLUTION_COUNTS 4, emptyBoard 4) :=
  ⟨Or.inl rfl, claim_C10_count_catalogue 4 (Or.inl rfl)⟩

end NQ

namespace RK

/-! ### Bounds and casts for the rolling hash -/

theorem prime_pos : (0 : Int) < prime := by decide

theorem hashStep_bounds (h : Int) (c : Char) :
    0 ≤ (base * h + ordC c) % prime ∧ (base * h + ordC c) % prime < prime :=
  ⟨Int.emod_nonneg _ (by decide), Int.emod_lt_of_pos _ prime_pos⟩

theorem compute_hash_foldl_bounds :
    ∀ (s : List Char) (a : Int), 0 ≤ a → a < prime →
      0 ≤ s.foldl (fun h c => (base * h + ordC c) % prime) a ∧
      s.foldl (fun h c => (base * h + ordC c) % prime) a < prime
  | [], _ => fun h1 h2 => ⟨h1, h2⟩
  | c :: s, a => by
    intro _ _
    rw [List.foldl_cons]
    exact compute_hash_foldl_bounds s _ (hashStep_bounds a c).1
      (hashStep_bounds a c).2

theorem compute_hash_bounds (s : List Char) :
    0 ≤ compute_hash s ∧ compute_hash s < prime :=
  compute_hash_foldl_bounds s 0 (by decide) (by decide)

theorem intCast_emod_prime (a : Int) :
    ((a % (101 : Int) : Int) : ZMod 101) = (a : ZMod 101) := by
  have h101 : ((101 : Int) : ZMod 101) = 0 := by
    have hns := ZMod.natCast_self 101
    exact_mod_cast hns
  calc ((a % (101 : Int) : Int) : ZMod 101)
      = ((a - 101 * (a / 101) : Int) : ZMod 101) := by
        rw [show a % (101 : Int) = a - 101 * (a / 101) from Int.emod_def a 101]
    _ = (a : ZMod 101) - ((101 : Int) : ZMod 101) * ((a / 101 : Int) : ZMod 101) := by
        push_cast
        ring
    _ = (a : ZMod 101) := by
        rw [h101]
        ring

theorem cast_compute_hash_foldl :
    ∀ (s : List Char) (a : Int),
      ((s.foldl (fun h c => (base * h + ordC c) % prime) a : Int) : ZMod 101) =
        s.foldl (fun h c => 256 * h + (c.toNat : ZMod 101)) ((a : ZMod 101))
  | [], _ => rfl
  | c :: s, a => by
    rw [List.foldl_cons, List.foldl_cons]
    rw [cast_compute_hash_foldl s _]
    congr 1
    simp only [base, ordC, prime]
    rw [intCast_emod_prime]
    push_cast
    ring

theorem cast_compute_hash (s : List Char) :
    ((compute_hash s : Int) : ZMod 101) = hashZ s := by
  unfold compute_hash hashZ
  rw [cast_compute_hash_foldl s 0]
  norm_num

theorem hashZ_foldl_init :
    ∀ (s : List Char) (a : ZMod 101),
      s.foldl (fun h c => 256 * h + (c.toNat : ZMod 101)) a =
        a * 256 ^ s.length + hashZ s
  | [], a => by simp [hashZ]
  | c :: s, a => by
    rw [List.foldl_cons]
    rw [hashZ_foldl_init s _]
    have hcs : hashZ (c :: s) =
        (256 * 0 + ((c.toNat : ZMod 101))) * 256 ^ s.length + hashZ s := by
      unfold hashZ
      rw [List.foldl_cons]
      exact hashZ_foldl_init s _
    rw [hcs, List.length_cons]
    ring

theorem hashZ_append_singleton (l : List Char) (c : Char) :
    hashZ (l ++ [c]) = 256 * hashZ l + (c.toNat : ZMod 101) := by
  unfold hashZ
  rw [List.foldl_append]
  rfl

theorem int_eq_of_cast_eq (a b : Int) (ha0 : 0 ≤ a) (ha1 : a < 101)
    (hb0 : 0 ≤ b) (hb1 : b < 101) (h : (a : ZMod 101) = (b : ZMod 101)) :
    a = b := by
  have hz : ((a - b : Int) : ZMod 101) = 0 := by
    push_cast
    rw [h]
    ring
  have hdvd : (101 : Int) ∣ (a - b) :=
    (ZMod.intCast_zmod_eq_zero_iff_dvd (a - b) 101).mp hz
  omega

/-! ### Window decomposition lemmas -/

theorem window_length (t : List Char) (m i : Nat) (h : i + m ≤ t.length) :
    ((t.drop i).take m).length = m := by
  rw [List.length_take, List.length_drop]
  omega

theorem tail_take (l : List Char) (k : Nat) :
    (l.take (k + 1)).tail = l.tail.take k := by
  cases l with
  | nil => simp
  | cons x xs => simp

theorem take_succ_getD (l : List Char) (k : Nat) (hk : k < l.length) :
    l.take (k + 1) = l.take k ++ [l.getD k dChar] := by
  rw [List.take_succ]
  congr 1
  rw [List.getD_eq_getElem?_getD, List.getElem?_eq_getElem hk]
  rfl

theorem getD_drop (t : List Char) (i j : Nat) :
    (t.drop i).getD j dChar = t.getD (i + j) dChar := by
  rw [List.getD_eq_getElem?_getD, List.getElem?_drop, List.getD_eq_getElem?_getD]

theorem window_succ (t : List Char) (m i : Nat) (h1 : 1 ≤ m)
    (h2 : i + m < t.length) :
    (t.drop (i + 1)).take m =
      ((t.drop i).take m).tail ++ [t.getD (i + m) dChar] := by
  have hu : t.drop (i + 1) = (t.drop i).tail := (List.tail_drop t i).symm
  rw [hu]
  obtain ⟨m', rfl⟩ : ∃ m', m = m' + 1 := ⟨m - 1, by omega⟩
  rw [← tail_take (t.drop i) (m' + 1)]
  rw [take_succ_getD (t.drop i) (m' + 1) (by rw [List.length_drop]; omega)]
  have hne : (t.drop i).take (m' + 1) ≠ [] := by
    intro hnil
    have hlen := congrArg List.length hnil
    rw [window_length t (m' + 1) i (by omega)] at hlen
    exact absurd hlen (by simp)
  rw [List.tail_append_of_ne_nil hne]
  rw [getD_drop t i (m' + 1)]

theorem window_cons (t : List Char) (m i : Nat) (h1 : 1 ≤ m)
    (h2 : i + m ≤ t.length) :
    (t.drop i).take m = t.getD i dChar :: ((t.drop i).take m).tail := by
  cases hd : t.drop i with
  | nil =>
    have hlen := congrArg List.length hd
    rw [List.length_drop] at hlen
    simp at hlen
    omega
  | cons x xs =>
    obtain ⟨m', rfl⟩ : ∃ m', m = m' + 1 := ⟨m - 1, by omega⟩
    rw [List.take_succ_cons]
    have hx : t.getD i dChar = x := by
      have h0 := List.getElem?_drop t i 0
      rw [hd] at h0
      simp only [List.getElem?_cons_zero] at h0
      rw [List.getD_eq_getElem?_getD, show i + 0 = i from rfl] at *
      rw [← h0]
      rfl
    rw [hx]
    rfl

/-! ### The rolling update computes the next window hash -/

theorem slide_eq (t : List Char) (m i : Nat) (h1 : 1 ≤ m)
    (h2 : i + m < t.length) (wh : Int)
    (hwh : wh = compute_hash ((t.drop i).take m)) :
    (let w := (base * (wh - ordC (t.getD i dChar) * ((base ^ (m - 1)) % prime))
        + ordC (t.getD (i + m) dChar)) % prime
     if w < 0 then w + prime else w) =
      compute_hash ((t.drop (i + 1)).take m) := by
  dsimp only
  simp only [base, ordC, prime]
  rw [if_neg (not_lt.mpr (Int.emod_nonneg _ (by decide)))]
  apply int_eq_of_cast_eq _ _ (Int.emod_nonneg _ (by decide))
    (Int.emod_lt_of_pos _ (by decide)) (compute_hash_bounds _).1
    (compute_hash_bounds _).2
  rw [intCast_emod_prime, cast_compute_hash]
  rw [window_succ t m i h1 h2, hashZ_append_singleton]
  have hlen : (((t.drop i).take m).tail).length = m - 1 := by
    rw [List.length_tail, window_length t m i (by omega)]
  have hsplit : hashZ ((t.drop i).take m) =
      (((t.getD i dChar).toNat : ZMod 101)) * 256 ^ (m - 1) +
        hashZ (((t.drop i).take m).tail) := by
    conv_lhs => rw [window_cons t m i h1 (by omega)]
    unfold hashZ
    rw [List.foldl_cons]
    rw [hashZ_foldl_init]
    rw [hlen]
    unfold hashZ
    ring
  have hcast : ((wh : Int) : ZMod 101) = hashZ ((t.drop i).take m) := by
    rw [hwh, cast_compute_hash]
  have hpow : ((((256 : Int) ^ (m - 1)) % (101 : Int) : Int) : ZMod 101) =
      (256 : ZMod 101) ^ (m - 1) := by
    rw [intCast_emod_prime]
    push_cast
    ring
  push_cast
  rw [hpow, hcast, hsplit]
  ring

/-! ### The search loop collects exactly the ground-truth matches -/

theorem searchBody_spec (t p : List Char) (h : Int) (st : RKLoopState)
    (i : Nat)
    (hwh : st.window_hash = compute_hash ((t.drop i).take p.length))
    (hp1 : 1 ≤ p.length) (hmn : p.length ≤ t.length)
    (hh : h = (base ^ (p.length - 1)) % prime) :
    ((searchBody t p (compute_hash p) h st i).matchesL =
      st.matchesL ++ (if (t.drop i).take p.length = p then [i] else [])) ∧
    (i < t.length - p.length →
      (searchBody t p (compute_hash p) h st i).window_hash =
        compute_hash ((t.drop (i + 1)).take p.length)) := by
  subst hh
  unfold searchBody
  dsimp only
  by_cases hwin : (t.drop i).take p.length = p
  · have hhash : compute_hash p = st.window_hash := by
      rw [hwh, hwin]
    rw [if_pos hhash, if_pos hwin]
    by_cases hslide : i < t.length - p.length
    · rw [if_pos hslide]
      dsimp only
      constructor
      · rw [if_pos hwin]
      · intro _
        exact slide_eq t p.length i hp1 (by omega) st.window_hash hwh
    · rw [if_neg hslide]
      dsimp only
      constructor
      · rw [if_pos hwin]
      · intro hcon
        exact absurd hcon hslide
  · have hmm : (searchBody t p (compute_hash p)
        ((base ^ (p.length - 1)) % prime) st i).matchesL = st.matchesL →
        True := fun _ => trivial
    by_cases hhash : compute_hash p = st.window_hash
    · rw [if_pos hhash, if_neg hwin]
      by_cases hslide : i < t.length - p.length
      · rw [if_pos hslide]
        dsimp only
        constructor
        · rw [if_neg hwin, List.append_nil]
        · intro _
          exact slide_eq t p.length i hp1 (by omega) st.window_hash hwh
      · rw [if_neg hslide]
        dsimp only
        constructor
        · rw [if_neg hwin, List.append_nil]
        · intro hcon
          exact absurd hcon hslide
    · rw [if_neg hhash]
      by_cases hslide : i < t.length - p.length
      · rw [if_pos hslide]
        dsimp only
        constructor
        · rw [if_neg hwin, List.append_nil]
        · intro _
          exact slide_eq t p.length i hp1 (by omega) st.window_hash hwh
      · rw [if_neg hslide]
        dsimp only
        constructor
        · rw [if_neg hwin, List.append_nil]
        · intro hcon
          exact absurd hcon hslide

theorem searchLoop_matchesL (t p : List Char) (hp1 : 1 ≤ p.length)
    (hmn : p.length ≤ t.length) :
    ∀ (k i : Nat) (st : RKLoopState),
      i + k = t.length - p.length + 1 →
      (k ≠ 0 → st.window_hash = compute_hash ((t.drop i).take p.length)) →
      ((List.range' i k).foldl
        (searchBody t p (compute_hash p) ((base ^ (p.length - 1)) % prime))
        st).matchesL =
        st.matchesL ++ (List.range' i k).filter
          (fun j => decide ((t.drop j).take p.length = p))
  | 0, i, st => by
    intro _ _
    simp
  | k + 1, i, st => by
    intro hik hwh
    rw [List.range'_succ i k 1]
    rw [List.foldl_cons, List.filter_cons]
    obtain ⟨hm, hw⟩ := searchBody_spec t p _ st i (hwh (by omega)) hp1 hmn rfl
    rw [searchLoop_matchesL t p hp1 hmn k (i + 1) _ (by omega)
      (fun hk => hw (by omega))]
    rw [hm]
    by_cases hwin : (t.drop i).take p.length = p
    · simp [hwin]
    · simp [hwin]

/-! ### Claim theorems for the Rabin-Karp engine -/

/-- C1 counterexample: for the empty pattern the code reports no
matches, while the direct-comparison ground truth (`text[i:i+0] == ""`)
holds at every index. -/
theorem claim_C1_counterexample :
    ¬ (search "a".toList "".toList).2 = groundTruth "a".toList "".toList := by
  decide

/-- C1 (amended): for every text and every NONEMPTY pattern, the matches
list returned by the search equals, in increasing order, the set of
indices `i` with `text[i:i+len(pattern)] == pattern` by direct substring
comparison; in particular `text="abcabcabc", pattern="abc"` yields
`[0, 3, 6]`.  For the empty pattern the code returns no matches even
though the ground-truth comparison succeeds everywhere. -/
theorem claim_C1_matches_ground_truth (t p : List Char) (hp : p ≠ []) :
    (search t p).2 = groundTruth t p := by
  have hp1 : 1 ≤ p.length := List.length_pos.mpr hp
  by_cases hgt : p.length > t.length
  · unfold search
    dsimp only
    rw [if_pos (Or.inl hgt)]
    unfold groundTruth
    have hrange : t.length - p.length + 1 = 1 := by omega
    have hr1 : List.range 1 = [0] := by decide
    rw [hrange, hr1]
    have h0 : ¬ (List.take p.length t = p) := by
      intro hcontra
      have hlen := congrArg List.length hcontra
      rw [List.length_take] at hlen
      omega
    simp [h0]
  · have hmn : p.length ≤ t.length := by omega
    unfold search
    dsimp only
    rw [if_neg (by push_neg; constructor <;> omega)]
    dsimp only
    rw [List.range_eq_range' (t.length - p.length + 1)]
    have hcalc := searchLoop_matchesL t p hp1 hmn (t.length - p.length + 1) 0
      ⟨[⟨.compute_pattern_hash, -1, -1, compute_hash p, 0,
          "Computing pattern hash: \x27" ++ String.mk p ++ "\x27 → " ++
            toString (compute_hash p), false, []⟩,
        ⟨.compute_window_hash, 0, (p.length : Int) - 1, compute_hash p,
          compute_hash (t.take p.length),
          "Computing first window hash: \x27" ++ String.mk (t.take p.length) ++
            "\x27 → " ++ toString (compute_hash (t.take p.length)), false,
          List.range p.length⟩], [], compute_hash (t.take p.length)⟩
      (by omega) (fun _ => by rw [List.drop_zero])
    rw [hcalc]
    unfold groundTruth
    rw [List.range_eq_range' (t.length - p.length + 1)]
    simp

/-- C1 witness: the nonempty-pattern claim at
`text="abcabcabc", pattern="abc"`, where the matches are `[0, 3, 6]`. -/
theorem claim_C1_witness :
    "abc".toList ≠ [] ∧
    (search "abcabcabc".toList "abc".toList).2 = [0, 3, 6] :=
  ⟨by decide, by
    rw [claim_C1_matches_ground_truth "abcabcabc".toList "abc".toList
      (by decide)]
    decide⟩

/-- C6: for an empty pattern or a pattern longer than the text, the
search records no steps and reports no matches, and the response echoes
the inputs around the two empty lists. -/
theorem claim_C6_degenerate (t p : List Char)
    (h : p.length > t.length ∨ p.length = 0) :
    search t p = ([], []) ∧ search_rabin_karp t p = ⟨[], [], t, p⟩ := by
  have hsearch : search t p = ([], []) := by
    unfold search
    dsimp only
    rw [if_pos h]
  refine ⟨hsearch, ?_⟩
  unfold search_rabin_karp
  rw [hsearch]

/-- C6 witness: pattern longer than text, and the empty pattern. -/
theorem claim_C6_witness :
    (("abc".toList.length > "ab".toList.length ∨ "abc".toList.length = 0) ∧
      search "ab".toList "abc".toList = ([], []) ∧
      search_rabin_karp "ab".toList "abc".toList =
        ⟨[], [], "ab".toList, "abc".toList⟩) ∧
    (("".toList.length > "ab".toList.length ∨ "".toList.length = 0) ∧
      search "ab".toList "".toList = ([], []) ∧
      search_rabin_karp "ab".toList "".toList =
        ⟨[], [], "ab".toList, "".toList⟩) :=
  ⟨⟨Or.inl (by decide),
    claim_C6_degenerate "ab".toList "abc".toList (Or.inl (by decide))⟩,
   ⟨Or.inr (by decide),
    claim_C6_degenerate "ab".toList "".toList (Or.inr (by decide))⟩⟩

/-- C8: the search is deterministic — identical `(text, pattern)` inputs
produce identical responses (step list with all recorded hashes, window
bounds and highlights, match list, and echoed inputs). -/
theorem claim_C8_deterministic (t1 p1 t2 p2 : List Char)
    (ht : t1 = t2) (hp : p1 = p2) :
    search_rabin_karp t1 p1 = search_rabin_karp t2 p2 := by
  subst ht
  subst hp
  rfl

/-- C8 witness: two calls on the same concrete input agree. -/
theorem claim_C8_witness :
    "hello world".toList = "hello world".toList ∧
    "world".toList = "world".toList ∧
    search_rabin_karp "hello world".toList "world".toList =
      search_rabin_karp "hello world".toList "world".toList :=
  ⟨rfl, rfl, claim_C8_deterministic "hello world".toList "world".toList
    "hello world".toList "world".toList rfl rfl⟩

end RK

namespace NQ

/-- C3 witness: the amended conflict characterization at the concrete
board of the counterexample (queens at (0,0) and (1,1), candidate
(2,2)). -/
theorem claim_C3_witness :
    ((is_safe 3 [[1, 0, 0], [0, 1, 0], [0, 0, 0]] 2 2).1 = true ↔
      (is_safe 3 [[1, 0, 0], [0, 1, 0], [0, 0, 0]] 2 2).2 = []) ∧
    (∀ i j, ((i, j) ∈ (is_safe 3 [[1, 0, 0], [0, 1, 0], [0, 0, 0]] 2 2).2 ↔
      cell [[1, 0, 0], [0, 1, 0], [0, 0, 0]] i j = 1 ∧ i < 2 ∧
        (j = 2 ∨ (i + 2 = j + 2 ∧ j < 2) ∨
          (i + j = 2 + 2 ∧ 2 < j ∧ j < 3)))) ∧
    (∃ P1 P2 P3, (is_safe 3 [[1, 0, 0], [0, 1, 0], [0, 0, 0]] 2 2).2 =
        P1 ++ P2 ++ P3 ∧
      (∀ x ∈ P1, x.2 = 2 ∧ x.1 < 2) ∧
      P1.Pairwise (fun a b => a.1 < b.1) ∧
      (∀ x ∈ P2, x.1 + 2 = x.2 + 2 ∧ x.2 < 2 ∧ x.1 < 2) ∧
      P2.Pairwise (fun a b => b.1 < a.1) ∧
      (∀ x ∈ P3, x.1 + x.2 = 2 + 2 ∧ 2 < x.2 ∧ x.2 < 3 ∧ x.1 < 2) ∧
      P3.Pairwise (fun a b => b.1 < a.1)) :=
  claim_C3_is_safe_conflicts 3 [[1, 0, 0], [0, 1, 0], [0, 0, 0]] 2 2

end NQ
